import Mathlib

/-!
Verification development for the dependency-analysis core of the repository:
the JS/TS lexical block scanner (`_js_parser.py`), the module resolver and
dependency-graph builders (`build_knowledge_graph.py`, `predict_impact.py`),
and the graph analyzers (Tarjan SCC, breadth-first blast radius).

The Python sources are shallowly embedded: lines are `List Char`, Python
dicts are association lists, Python sets are duplicate-free lists built by
membership-checked insertion, machine integers are `Nat`/`Int`.  Python
string-set iteration order (e.g. over `MODULE_HINTS`) is modelled as the
literal order written in the source.
-/

namespace Spec2Proof

/-- Characters that are awkward to quote are named once. -/
def squote : Char := Char.ofNat 39

def dquote : Char := Char.ofNat 34

def backquote : Char := Char.ofNat 96

def obrace : Char := Char.ofNat 123

def cbrace : Char := Char.ofNat 125

def bslash : Char := '\\'

/-- Python `str.isspace` for the ASCII whitespace used by `strip`/`lstrip`. -/
def pyIsSpace (c : Char) : Bool :=
  c = ' ' || c = '\t' || c = '\n' || c = '\r' || c = Char.ofNat 11 || c = Char.ofNat 12

/-- Embedding of `JsBraceState` from `_js_parser.py`. -/
structure JsBraceState where
  inBlockComment : Bool := false
  inSingle : Bool := false
  inDouble : Bool := false
  inTemplate : Bool := false
  escaped : Bool := false
deriving Repr, DecidableEq

/-- The character loop of `js_brace_counts`: walks the line from index `idx`
one character at a time (`idx + 2` when a comment delimiter is recognised),
accumulating open/close brace counts.  `nxt` is `line[idx + 1]` when present.
A `//` marker outside every state ends the scan of the line.  The structural
`fuel` counts loop iterations; the index advances every iteration, so
`line.length` iterations always suffice and the `0` branch is unreachable
from `jsBraceCounts`. -/
def jsBraceLoop (line : List Char) : Nat → Nat → JsBraceState → Nat → Nat → Nat × Nat × JsBraceState
  | 0, _, st, opens, closes => (opens, closes, st)
  | fuel + 1, idx, st, opens, closes =>
    if line.length ≤ idx then (opens, closes, st)
    else
      let c := line.getD idx ' '
      let nxt := line.get? (idx + 1)
      if st.inBlockComment then
        if c = '*' && nxt = some '/' then
          jsBraceLoop line fuel (idx + 2) { st with inBlockComment := false } opens closes
        else jsBraceLoop line fuel (idx + 1) st opens closes
      else if st.inSingle then
        if st.escaped then jsBraceLoop line fuel (idx + 1) { st with escaped := false } opens closes
        else if c = bslash then jsBraceLoop line fuel (idx + 1) { st with escaped := true } opens closes
        else if c = squote then jsBraceLoop line fuel (idx + 1) { st with inSingle := false } opens closes
        else jsBraceLoop line fuel (idx + 1) st opens closes
      else if st.inDouble then
        if st.escaped then jsBraceLoop line fuel (idx + 1) { st with escaped := false } opens closes
        else if c = bslash then jsBraceLoop line fuel (idx + 1) { st with escaped := true } opens closes
        else if c = dquote then jsBraceLoop line fuel (idx + 1) { st with inDouble := false } opens closes
        else jsBraceLoop line fuel (idx + 1) st opens closes
      else if st.inTemplate then
        if st.escaped then jsBraceLoop line fuel (idx + 1) { st with escaped := false } opens closes
        else if c = bslash then jsBraceLoop line fuel (idx + 1) { st with escaped := true } opens closes
        else if c = backquote then jsBraceLoop line fuel (idx + 1) { st with inTemplate := false } opens closes
        else jsBraceLoop line fuel (idx + 1) st opens closes
      else if c = '/' && nxt = some '/' then (opens, closes, st)
      else if c = '/' && nxt = some '*' then
        jsBraceLoop line fuel (idx + 2) { st with inBlockComment := true } opens closes
      else if c = squote then jsBraceLoop line fuel (idx + 1) { st with inSingle := true } opens closes
      else if c = dquote then jsBraceLoop line fuel (idx + 1) { st with inDouble := true } opens closes
      else if c = backquote then jsBraceLoop line fuel (idx + 1) { st with inTemplate := true } opens closes
      else if c = obrace then jsBraceLoop line fuel (idx + 1) st (opens + 1) closes
      else if c = cbrace then jsBraceLoop line fuel (idx + 1) st opens (closes + 1)
      else jsBraceLoop line fuel (idx + 1) st opens closes

/-- Embedding of `js_brace_counts`: runs the loop and, as the source does just
before returning, clears the escape flag. -/
def jsBraceCounts (line : List Char) (st : JsBraceState) : Nat × Nat × JsBraceState :=
  let r := jsBraceLoop line line.length 0 st 0 0
  (r.1, r.2.1, { r.2.2 with escaped := false })

/-- Python `str.lstrip()` on a line. -/
def lstripChars (l : List Char) : List Char := l.dropWhile pyIsSpace

/-- The first loop of `estimate_js_end`: thread the brace state through the
lines from `start_idx`, returning the first index where the depth returns to
zero after having been opened. -/
def scanDepthLoop (depth : Int) (opened : Bool) (st : JsBraceState) (idx : Nat) :
    List (List Char) → Option Nat
  | [] => none
  | line :: rest =>
    let r := jsBraceCounts line st
    let opened2 := opened || decide (0 < r.1)
    let depth2 := depth + (r.1 : Int) - (r.2.1 : Int)
    if opened2 && decide (depth2 ≤ 0) then some idx
    else scanDepthLoop depth2 opened2 r.2.2 (idx + 1) rest

/-- Declaration openers from the sibling-heuristic loop of `estimate_js_end`. -/
def declStarts : List (List Char) :=
  ["export ".toList, "function ".toList, "class ".toList,
   "const ".toList, "let ".toList, "var ".toList]

/-- Exclusions of the sibling heuristic (`const \x7b`, `const [`, `let \x7b`). -/
def declExcl : List (List Char) :=
  [('c' :: 'o' :: 'n' :: 's' :: 't' :: ' ' :: [obrace]),
   "const [".toList,
   ('l' :: 'e' :: 't' :: ' ' :: [obrace])]

/-- `stripped.startswith(tuple)`. -/
def startsWithAny (l : List Char) (ps : List (List Char)) : Bool :=
  ps.any (fun p => p.isPrefixOf l)

/-- The second (sibling-declaration) loop of `estimate_js_end`. -/
def siblingLoop (startIdx startIndent : Nat) : Nat → List (List Char) → Option Nat
  | _, [] => none
  | idx, line :: rest =>
    let stripped := lstripChars line
    if stripped.isEmpty then siblingLoop startIdx startIndent (idx + 1) rest
    else if startsWithAny stripped declStarts && !startsWithAny stripped declExcl then
      if line.length - stripped.length ≤ startIndent then
        some (if startIdx ≤ idx - 1 then idx - 1 else startIdx)
      else siblingLoop startIdx startIndent (idx + 1) rest
    else siblingLoop startIdx startIndent (idx + 1) rest

/-- Embedding of `estimate_js_end` (`_js_parser.py`).  `start_idx` is a `Nat`,
so the source's `start_idx < 0` guard is vacuous here. -/
def estimateJsEnd (lines : List (List Char)) (startIdx : Nat) : Option Nat :=
  if lines.length ≤ startIdx then none
  else
    let maxScan := min (startIdx + 2000) lines.length
    let scanLines := (lines.drop startIdx).take (maxScan - startIdx)
    match scanDepthLoop 0 false {} startIdx scanLines with
    | some i => some i
    | none =>
      let startLine := (lines.get? startIdx).getD []
      let startIndent := startLine.length - (lstripChars startLine).length
      let afterLines := (lines.drop (startIdx + 1)).take (maxScan - (startIdx + 1))
      match siblingLoop startIdx startIndent (startIdx + 1) afterLines with
      | some i => some i
      | none => some (min (startIdx + 50) (lines.length - 1))

/-! ### Signature matcher: `_parse_js_params` / `_extract_params_from_line` -/

/-- Python `str.split(sep)` helper (splits at every separator occurrence). -/
def splitOnCharAux (sep : Char) : List Char → List Char → List (List Char)
  | [], acc => [acc.reverse]
  | c :: rest, acc =>
    if c = sep then acc.reverse :: splitOnCharAux sep rest []
    else splitOnCharAux sep rest (c :: acc)

/-- Python `str.split(sep)`. -/
def splitOnChar (sep : Char) (l : List Char) : List (List Char) := splitOnCharAux sep l []

/-- Python `str.strip(chars)`: drop characters satisfying `p` from both ends. -/
def stripWhile (p : Char → Bool) (l : List Char) : List Char :=
  ((l.dropWhile p).reverse.dropWhile p).reverse

/-- The character set of `strip("() ")`. -/
def parenSpace (c : Char) : Bool := c = '(' || c = ')' || c = ' '

/-- `[A-Za-z_$]` (the regexes in the source are ASCII-explicit here). -/
def identHeadChar (c : Char) : Bool := c.isAlpha || c = '_' || c = '$'

/-- `[\w$]`, ASCII reading. -/
def identTailChar (c : Char) : Bool := c.isAlphanum || c = '_' || c = '$'

/-- `re.match(r"^([A-Za-z_$][\w$]*)\s*:\s*.+$", token)`: a TypeScript-style
`name: Type` annotation; returns the captured name on a match.  Tokens come
from single lines, so the newline subtleties of `.` and `$` do not arise. -/
def matchTypeAnn (l : List Char) : Option (List Char) :=
  match l with
  | [] => none
  | c :: rest =>
    if identHeadChar c then
      match (rest.dropWhile identTailChar).dropWhile pyIsSpace with
      | ':' :: r2 =>
        if ((r2.dropWhile pyIsSpace).isEmpty) then none
        else some (c :: rest.takeWhile identTailChar)
      | _ => none
    else none

/-- The body of the `for part in raw.split(",")` loop of `_parse_js_params`:
clean one comma-separated fragment, `none` meaning `continue`. -/
def cleanJsParamToken (part : List Char) : Option (List Char) :=
  let token0 := stripWhile pyIsSpace part
  if token0.isEmpty then none
  else
    let token1 := (stripWhile parenSpace token0).dropWhile (· = '.')
    let token2 := stripWhile pyIsSpace (token1.takeWhile (· ≠ '='))
    let token3 := match matchTypeAnn token2 with
      | some ident => ident
      | none => token2
    let token4 := stripWhile pyIsSpace (stripWhile parenSpace token3)
    if token4 = "async".toList || token4 = "()".toList then none
    else if token4.isEmpty then none
    else some token4

/-- Embedding of `_parse_js_params`: split the raw fragment at every comma and
clean each part. -/
def parseJsParams (raw : List Char) : List (List Char) :=
  (splitOnChar ',' raw).filterMap cleanJsParamToken

/-- Take the `[A-Za-z_$][\w$]*` identifier at the head of `l`, with the rest. -/
def identTake (l : List Char) : Option (List Char × List Char) :=
  match l with
  | [] => none
  | c :: rest =>
    if identHeadChar c then some (c :: rest.takeWhile identTailChar, rest.dropWhile identTailChar)
    else none

/-- After the optional `async` part of `SINGLE_ARROW_PARAM_PATTERN`: match
`([A-Za-z_$][\w$]*)\s*=>` and return the captured identifier. -/
def finishArrow (l : List Char) : Option (List Char) :=
  match identTake l with
  | some (i, r) =>
    match r.dropWhile pyIsSpace with
    | '=' :: '>' :: _ => some i
    | _ => none
  | none => none

/-- `SINGLE_ARROW_PARAM_PATTERN` (`=\s*(?:async\s*)?([A-Za-z_$][\w$]*)\s*=>`)
anchored at the current position; the optional greedy `(?:async\s*)?` is tried
first and dropped on failure, as the regex engine backtracks. -/
def matchArrowAt : List Char → Option (List Char)
  | '=' :: rest =>
    let r1 := rest.dropWhile pyIsSpace
    if "async".toList.isPrefixOf r1 then
      match finishArrow ((r1.drop 5).dropWhile pyIsSpace) with
      | some i => some i
      | none => finishArrow r1
    else finishArrow r1
  | _ => none

/-- `SINGLE_ARROW_PARAM_PATTERN.search`: leftmost match. -/
def searchArrow : List Char → Option (List Char)
  | [] => none
  | c :: rest =>
    match matchArrowAt (c :: rest) with
    | some i => some i
    | none => searchArrow rest

/-- `[^)]*` then `)`: the fragment up to the first closing parenthesis. -/
def takeToParen : List Char → Option (List Char)
  | [] => none
  | c :: rest => if c = ')' then some [] else (takeToParen rest).map (c :: ·)

/-- `PAREN_PARAM_PATTERN.search` (`\(([^)]*)\)`): leftmost `(` that is
followed by a `)`, capturing the characters between. -/
def searchParen : List Char → Option (List Char)
  | [] => none
  | c :: rest =>
    if c = '(' then
      match takeToParen rest with
      | some g => some g
      | none => searchParen rest
    else searchParen rest

/-- Embedding of `_extract_params_from_line`. -/
def extractParamsFromLine (line : List Char) : List (List Char) :=
  match searchArrow line with
  | some g => parseJsParams g
  | none =>
    match searchParen line with
    | some g => parseJsParams g
    | none => []

/-! ### Python `sorted` on strings (code-point lexicographic order) -/

/-- Lexicographic `≤` on character lists by code point, as Python compares
strings.  (Mathlib's `String.le` does not reduce in the kernel, so the order
is spelled out.) -/
def charsLe : List Char → List Char → Bool
  | [], _ => true
  | _ :: _, [] => false
  | a :: as, b :: bs => if a = b then charsLe as bs else decide (a < b)

/-- Python `s <= t` on strings. -/
def strLe (s t : String) : Bool := charsLe s.toList t.toList

/-- `strLe` as a relation, for `List.insertionSort`. -/
def strRel (s t : String) : Prop := strLe s t = true

instance : DecidableRel strRel := fun s t => inferInstanceAs (Decidable (strLe s t = true))

/-- Python `sorted(...)` on a list of strings. -/
def sortStrs (l : List String) : List String := List.insertionSort strRel l

/-- Python `<=` on lists of strings (used by `result.sort()` in Tarjan). -/
def listStrLe : List String → List String → Bool
  | [], _ => true
  | _ :: _, [] => false
  | a :: as, b :: bs => if a = b then listStrLe as bs else strLe a b

/-- `listStrLe` as a relation. -/
def listStrRel (a b : List String) : Prop := listStrLe a b = true

instance : DecidableRel listStrRel := fun a b => inferInstanceAs (Decidable (listStrLe a b = true))

/-- Python `list.sort()` on a list of string lists. -/
def sortStrLists (l : List (List String)) : List (List String) := List.insertionSort listStrRel l

/-! ### `read_limited` (build_knowledge_graph.py) -/

/-- The warning text of `read_limited`. -/
def truncationMsg (rel : String) : String :=
  "Large file truncated to first 500 lines: " ++ rel

/-- Python `raw.rstrip("\n\r")` on one raw line. -/
def rstripNL (s : String) : String :=
  String.mk ((s.toList.reverse.dropWhile (fun c => c = '\n' || c = '\r')).reverse)

/-- The `enumerate(handle, start=1)` loop of `read_limited`: keep lines 1..500,
and when a line number exceeds 2000 append the truncation warning and stop. -/
def readLimitedLoop (rel : String) : List String → Nat → List String → List String × List String
  | [], _, acc => (acc.reverse, [])
  | l :: rest, n, acc =>
    let acc2 := if n ≤ 500 then rstripNL l :: acc else acc
    if 2000 < n then (acc2.reverse, [truncationMsg rel])
    else readLimitedLoop rel rest (n + 1) acc2

/-- Embedding of `read_limited`, the file given as its list of raw lines; the
`OSError` branch is outside the model.  Returns the kept lines and the
warnings the call appends. -/
def readLimited (rel : String) (raw : List String) : List String × List String :=
  readLimitedLoop rel raw 1 []

/-- `"\n".join(lines)` (only its emptiness is consumed downstream). -/
def joinNL (ls : List String) : String := String.intercalate "\n" ls

/-! ### Module resolver: `expand_candidates` / `choose_existing` -/

/-- A `pathlib` path, as its list of components. -/
abbrev PyPath := List String

/-- Index of the last `'.'` of a file name, if any. -/
def lastDotIdx (name : List Char) : Option Nat :=
  (name.reverse.findIdx? (· = '.')).map (fun j => name.length - 1 - j)

/-- `PurePath.suffix` on one name: the part from the last dot, provided that
dot is neither the first nor the last character. -/
def nameSuffix (name : List Char) : List Char :=
  match lastDotIdx name with
  | some i => if 0 < i && i + 1 < name.length then name.drop i else []
  | none => []

/-- `Path.suffix` of a path (suffix of its last component). -/
def pathSuffix (p : PyPath) : List Char :=
  match p.getLast? with
  | some name => nameSuffix name.toList
  | none => []

/-- `Path.with_suffix(ext)`: replace (or append, when there is none) the
suffix of the last component. -/
def withSuffix (p : PyPath) (ext : String) : PyPath :=
  let name := (p.getLast?).getD ""
  let stem := String.mk (name.toList.take (name.toList.length - (nameSuffix name.toList).length))
  p.dropLast ++ [stem ++ ext]

/-- `RESOLVE_EXTENSIONS`, in source order. -/
def RESOLVE_EXTENSIONS : List String :=
  [".ts", ".tsx", ".js", ".jsx", ".mjs", ".cjs", ".py", ".json"]

/-- Embedding of `expand_candidates` (identical in both scripts): a base with
a suffix is tried verbatim and alone; a base without one yields the base with
each extension, then an `index` file per extension inside the base. -/
def expandCandidates (base : PyPath) : List PyPath :=
  if (pathSuffix base).isEmpty then
    RESOLVE_EXTENSIONS.map (withSuffix base) ++
      RESOLVE_EXTENSIONS.map (fun ext => base ++ ["index" ++ ext])
  else [base]

/-- Embedding of `choose_existing`.  The filesystem is abstracted into three
predicates: `resolveFn` is `Path.resolve` (`none` = `OSError`), `existingMem`
is membership in the pre-collected `existing` set, and `realFileInRoot` is the
conjunction `exists() and is_file() and inside_root(...)`. -/
def chooseExisting (resolveFn : PyPath → Option PyPath) (existingMem realFileInRoot : PyPath → Bool) :
    List PyPath → Option PyPath
  | [] => none
  | cand :: rest =>
    match resolveFn cand with
    | none => chooseExisting resolveFn existingMem realFileInRoot rest
    | some r =>
      if existingMem r then some r
      else if realFileInRoot r then some r
      else chooseExisting resolveFn existingMem realFileInRoot rest

/-! ### Dependency-graph builders -/

/-- Python `Dict[str, Set[str]]`, keys in insertion order, each value list
duplicate-free in insertion order. -/
abbrev AList := List (String × List String)

/-- `dict.get(k, set())` / `defaultdict` read. -/
def alGet (m : AList) (k : String) : List String := (m.lookup k).getD []

/-- Keys, in insertion order. -/
def alKeys (m : AList) : List String := m.map (·.1)

/-- `defaultdict(set)[k].add(v)`. -/
def alAdd (m : AList) (k v : String) : AList :=
  match m with
  | [] => [(k, [v])]
  | (k', vs) :: rest =>
    if k' = k then (k', if v ∈ vs then vs else vs ++ [v]) :: rest
    else (k', vs) :: alAdd rest k v

/-- `m.setdefault(k, set())`. -/
def alSetdefault (m : AList) (k : String) : AList :=
  if (m.lookup k).isSome then m else m ++ [(k, [])]

/-- The inner loop shared by both builders: fold the resolution outcomes of
one importer into the two adjacency maps, skipping unresolved imports
(`none`) and self-edges. -/
def addEdges (rel : String) : List (Option String) → AList → AList → AList × AList
  | [], imp, rev => (imp, rev)
  | none :: rest, imp, rev => addEdges rel rest imp rev
  | some t :: rest, imp, rev =>
    if t = rel then addEdges rel rest imp rev
    else addEdges rel rest (alAdd imp rel t) (alAdd rev t rel)

/-- The per-file loop of `build_dependency_graph` (build_knowledge_graph.py).
A file is `(rel, rawLines)`; `resolve rel keptLines` abstracts
`parse_import_modules` plus per-module resolution against the fixed file set,
returning the resolution outcome of each extracted import in order. -/
def buildDependencyGraphLoop (resolve : String → List String → List (Option String)) :
    List (String × List String) → AList → AList → List (String × List String) → List String →
    AList × AList × List (String × List String) × List String
  | [], imp, rev, rawc, warns => (imp, rev, rawc, warns)
  | (rel, raw) :: rest, imp, rev, rawc, warns =>
    let rl := readLimited rel raw
    let rawc2 := rawc ++ [(rel, rl.1)]
    let warns2 := warns ++ rl.2
    if (joinNL rl.1).isEmpty then buildDependencyGraphLoop resolve rest imp rev rawc2 warns2
    else
      let e := addEdges rel (resolve rel rl.1) imp rev
      buildDependencyGraphLoop resolve rest e.1 e.2 rawc2 warns2

/-- Embedding of `build_dependency_graph`: run the per-file loop, then the
`setdefault` pass that gives every file an entry in both maps. -/
def buildDependencyGraph (resolve : String → List String → List (Option String))
    (files : List (String × List String)) :
    AList × AList × List (String × List String) × List String :=
  let r := buildDependencyGraphLoop resolve files [] [] [] []
  (files.foldl (fun m f => alSetdefault m f.1) r.1,
   files.foldl (fun m f => alSetdefault m f.1) r.2.1,
   r.2.2.1, r.2.2.2)

/-- Embedding of `build_dependency_maps` (predict_impact.py): the same edge
accumulation, but with no `setdefault` pass (the full file set is returned
separately by the source).  `resolve rel` abstracts `parse_imports` plus
resolution; a file whose content is empty simply resolves to `[]`. -/
def buildDependencyMaps (resolve : String → List (Option String)) :
    List String → AList → AList → AList × AList
  | [], imp, rev => (imp, rev)
  | rel :: rest, imp, rev =>
    let e := addEdges rel (resolve rel) imp rev
    buildDependencyMaps resolve rest e.1 e.2

/-! ### Module names and module boundaries (build_knowledge_graph.py) -/

/-- `MODULE_HINTS` — a Python set literal; its iteration order is modelled as
the literal order written in the source. -/
def MODULE_HINTS : List String :=
  ["controllers", "services", "models", "utils", "routes", "middlewares", "middleware",
   "config", "repositories", "repository", "hooks", "store", "stores", "pages", "components"]

/-- Python `str.lower()` (ASCII reading). -/
def pyToLower (s : String) : String := String.mk (s.toList.map Char.toLower)

/-- `Path(rel_file).parts` for the normalized relative posix paths used here. -/
def pathParts (rel : String) : List String :=
  ((splitOnChar '/' rel.toList).filter (fun p => !p.isEmpty)).map (fun p => String.mk p)

/-- Embedding of `module_name`. -/
def moduleName (rel : String) : String :=
  let parts := pathParts rel
  if parts.isEmpty then "root"
  else
    let lowered := parts.map pyToLower
    match MODULE_HINTS.find? (fun hint => lowered.contains hint) with
    | some hint => if hint = "middleware" then "middlewares" else hint
    | none =>
      let first := lowered.headD ""
      if (["src", "app", "server", "backend", "frontend", "lib"].contains first)
          && 1 < lowered.length then (lowered.get? 1).getD ""
      else first

/-- The `module_map` of `build_module_boundaries`: per module, the pair
(`imports_from`, `imported_by`), keys in first-touch order. -/
abbrev ModMap := List (String × (List String × List String))

/-- The bare `module_map[m]` touch of the Python `defaultdict`. -/
def mmTouch (m : ModMap) (k : String) : ModMap :=
  if (m.lookup k).isSome then m else m ++ [(k, ([], []))]

/-- `module_map[k]["imports_from"].add(v)`. -/
def mmAddFrom (m : ModMap) (k v : String) : ModMap :=
  match m with
  | [] => [(k, ([v], []))]
  | (k', e) :: rest =>
    if k' = k then (k', (if v ∈ e.1 then e.1 else e.1 ++ [v], e.2)) :: rest
    else (k', e) :: mmAddFrom rest k v

/-- `module_map[k]["imported_by"].add(v)`. -/
def mmAddBy (m : ModMap) (k v : String) : ModMap :=
  match m with
  | [] => [(k, ([], [v]))]
  | (k', e) :: rest =>
    if k' = k then (k', (e.1, if v ∈ e.2 then e.2 else e.2 ++ [v])) :: rest
    else (k', e) :: mmAddBy rest k v

/-- Inner loop of `build_module_boundaries` over one file's import targets. -/
def moduleEdgesInner (sourceModule : String) : List String → ModMap → AList → ModMap × AList
  | [], mm, mg => (mm, mg)
  | target :: rest, mm, mg =>
    let targetModule := moduleName target
    let mm := mmTouch mm targetModule
    if sourceModule = targetModule then moduleEdgesInner sourceModule rest mm mg
    else
      moduleEdgesInner sourceModule rest
        (mmAddBy (mmAddFrom mm sourceModule targetModule) targetModule sourceModule)
        (alAdd mg sourceModule targetModule)

/-- Outer loop of `build_module_boundaries` over `file_deps.items()`. -/
def moduleEdgesLoop : List (String × List String) → ModMap → AList → ModMap × AList
  | [], mm, mg => (mm, mg)
  | (source, imports) :: rest, mm, mg =>
    let sourceModule := moduleName source
    let e := moduleEdgesInner sourceModule imports (mmTouch mm sourceModule) mg
    moduleEdgesLoop rest e.1 e.2

/-! ### Tarjan SCC (`strongly_connected_components` / `strong_connect`) -/

/-- Overwriting insert into a `Dict[str, int]`. -/
def anSet (m : List (String × Nat)) (k : String) (v : Nat) : List (String × Nat) :=
  match m with
  | [] => [(k, v)]
  | (k', v') :: rest => if k' = k then (k, v) :: rest else (k', v') :: anSet rest k v

/-- The mutable state of `strongly_connected_components`: counter, index and
low-link maps, the Tarjan stack (top at the head) and its membership set, and
the accumulated components. -/
structure TarjanSt where
  index : Nat := 0
  indices : List (String × Nat) := []
  lowLinks : List (String × Nat) := []
  stack : List String := []
  onStack : List String := []
  result : List (List String) := []
deriving Repr, DecidableEq

/-- The `while stack:` pop loop: pop until `node` (inclusive); returns the
popped component in pop order and the remaining stack. -/
def popComponent : List String → String → List String × List String
  | [], _ => ([], [])
  | p :: rest, node =>
    if p = node then ([p], rest)
    else
      let r := popComponent rest node
      (p :: r.1, r.2)

/-- Root check and component emission at the end of `strong_connect`. -/
def emitComponent (g : AList) (node : String) (st : TarjanSt) : TarjanSt :=
  if st.lowLinks.lookup node = st.indices.lookup node then
    let pc := popComponent st.stack node
    let comp := sortStrs pc.1
    let st2 : TarjanSt := { st with
      stack := pc.2,
      onStack := st.onStack.filter (fun x => !(pc.1.contains x)) }
    if 1 < comp.length then { st2 with result := st2.result ++ [comp] }
    else
      match comp with
      | [x] => if (alGet g x).contains x then { st2 with result := st2.result ++ [comp] } else st2
      | _ => st2
  else st

/-- Embedding of the recursive `strong_connect`: index/low-link assignment,
the `for neighbor in sorted(graph.get(node, set()))` loop (a fold, with the
language-level recursive call inside), then root check and emission.  The
structural fuel only mirrors the call stack: one unit per nested call; every
use supplies more fuel than the graph has nodes, so the `0` branch is never
taken. -/
def strongConnect (g : AList) : Nat → String → TarjanSt → TarjanSt
  | 0, _, st => st
  | fuel + 1, node, st0 =>
    let st1 : TarjanSt := { st0 with
      index := st0.index + 1,
      indices := anSet st0.indices node st0.index,
      lowLinks := anSet st0.lowLinks node st0.index,
      stack := node :: st0.stack,
      onStack := node :: st0.onStack }
    let st2 := (sortStrs (alGet g node)).foldl
      (fun st nb =>
        if (st.indices.lookup nb).isNone then
          let r := strongConnect g fuel nb st
          let v := min ((r.lowLinks.lookup node).getD 0) ((r.lowLinks.lookup nb).getD 0)
          { r with lowLinks := anSet r.lowLinks node v }
        else if st.onStack.contains nb then
          let v := min ((st.lowLinks.lookup node).getD 0) ((st.indices.lookup nb).getD 0)
          { st with lowLinks := anSet st.lowLinks node v }
        else st)
      st1
    emitComponent g node st2

/-- `sorted(set(graph.keys()) | {n for targets in graph.values() for n in targets})`. -/
def tarjanNodes (g : AList) : List String :=
  sortStrs ((alKeys g ++ (g.map (·.2)).flatten).dedup)

/-- Fuel bound: nesting of `strong_connect` never exceeds the node count. -/
def tarjanFuel (g : AList) : Nat := (tarjanNodes g).length + 1

/-- Embedding of `strongly_connected_components`. -/
def stronglyConnectedComponents (g : AList) : List (List String) :=
  let st := (tarjanNodes g).foldl
    (fun st node =>
      if (st.indices.lookup node).isNone then strongConnect g (tarjanFuel g) node st else st)
    {}
  sortStrLists st.result

/-- Embedding of `build_module_boundaries`. -/
def buildModuleBoundaries (fileDeps : List (String × List String)) :
    ModMap × List (List String) :=
  let e := moduleEdgesLoop fileDeps [] []
  (e.1, stronglyConnectedComponents e.2)

/-- `strongConnect` instrumented with the nesting depth of language-level
recursive calls it performs (the call itself counts 1; the second component
folds the maximum nesting depth among the calls made from the neighbor
loop). -/
def strongConnectDepth (g : AList) : Nat → String → TarjanSt → TarjanSt × Nat
  | 0, _, st => (st, 0)
  | fuel + 1, node, st0 =>
    let st1 : TarjanSt := { st0 with
      index := st0.index + 1,
      indices := anSet st0.indices node st0.index,
      lowLinks := anSet st0.lowLinks node st0.index,
      stack := node :: st0.stack,
      onStack := node :: st0.onStack }
    let r := (sortStrs (alGet g node)).foldl
      (fun (p : TarjanSt × Nat) nb =>
        let st := p.1
        if (st.indices.lookup nb).isNone then
          let r := strongConnectDepth g fuel nb st
          let v := min ((r.1.lowLinks.lookup node).getD 0) ((r.1.lowLinks.lookup nb).getD 0)
          ({ r.1 with lowLinks := anSet r.1.lowLinks node v }, max p.2 r.2)
        else if st.onStack.contains nb then
          let v := min ((st.lowLinks.lookup node).getD 0) ((st.indices.lookup nb).getD 0)
          ({ st with lowLinks := anSet st.lowLinks node v }, p.2)
        else (st, p.2))
      (st1, 0)
    (emitComponent g node r.1, r.2 + 1)

/-! ### Blast radius: `dependent_levels` (predict_impact.py) -/

/-- The `for dependent in reverse.get(current, set())` body of
`dependent_levels`: visit fresh dependents, route them into `direct` or
`indirect` by `next_level == 1`, and record them (in order) for the queue. -/
def bfsExpand (nextLevel : Nat) :
    List String → List String → List String → List String → List String →
    List String × List String × List String × List String
  | [], vis, d, i, new => (vis, d, i, new)
  | nb :: rest, vis, d, i, new =>
    if vis.contains nb then bfsExpand nextLevel rest vis d i new
    else
      bfsExpand nextLevel rest (vis ++ [nb])
        (if nextLevel = 1 then d ++ [nb] else d)
        (if nextLevel = 1 then i else i ++ [nb])
        (new ++ [nb])

/-- The `while queue:` loop of `dependent_levels`.  The fuel only mirrors the
number of iterations, which is bounded by `bfsFuel` below; the `0` branch is
never reached from `dependentLevels`. -/
def bfsAux (rev : AList) (depth : Nat) :
    Nat → List (String × Nat) → List String → List String → List String →
    List String × List String
  | 0, _, _, d, i => (d, i)
  | _ + 1, [], _, d, i => (d, i)
  | fuel + 1, (cur, lvl) :: rest, vis, d, i =>
    if depth ≤ lvl then bfsAux rev depth fuel rest vis d i
    else
      let e := bfsExpand (lvl + 1) (alGet rev cur) vis d i []
      bfsAux rev depth fuel (rest ++ e.2.2.2.map (fun x => (x, lvl + 1))) e.1 e.2.1 e.2.2.1

/-- Iteration bound for the queue loop: one initial pop plus at most one pop
per occurrence of a node in some adjacency list. -/
def bfsFuel (rev : AList) : Nat := 1 + ((rev.map (fun p => p.2.length)).sum)

/-- Embedding of `dependent_levels`: queue seeded with the target at level 0,
visited set seeded with the target. -/
def dependentLevels (rev : AList) (target : String) (depth : Nat) :
    List String × List String :=
  bfsAux rev depth (bfsFuel rev) [(target, 0)] [target] [] []

/-- Level-structured restatement of the queue loop, used by the proofs: the
queue of `bfsAux` always consists of the pending part of the current level
followed by the already-discovered part of the next one. -/
def levelBfs (rev : AList) (depth : Nat) :
    Nat → List String → List String → List String → List String → List String →
    List String × List String
  | L, A, B, vis, d, i =>
    if _h : depth ≤ L then (d, i)
    else
      match A with
      | [] => levelBfs rev depth (L + 1) B [] vis d i
      | a :: A2 =>
        let e := bfsExpand (L + 1) (alGet rev a) vis d i []
        levelBfs rev depth L A2 (B ++ e.2.2.2) e.1 e.2.1 e.2.2.1
termination_by L A _ _ _ _ => (depth - L, A.length)
decreasing_by all_goals (simp_wf; omega)

/-- Nodes unseen by the visited list that could still ever be enqueued. -/
def unseenCount (rev : AList) (vis : List String) : Nat :=
  ((((rev.map (·.2)).flatten).dedup).filter (fun v => !vis.contains v)).length

/-- Specification-side notion for the blast radius: `v` is reachable from
`target` in the reverse graph by a path of length at most `n`. -/
inductive ReachableWithin (rev : AList) (target : String) : Nat → String → Prop
  | refl (n : Nat) : ReachableWithin rev target n target
  | step {n : Nat} {u v : String} :
      ReachableWithin rev target n u → v ∈ alGet rev u → ReachableWithin rev target (n + 1) v

/-! ### `build_graph` orchestration (build_knowledge_graph.py) -/

/-- Ordering of `sorted(files)` in `collect_code_files`, by path. -/
def pairRel (a b : String × List String) : Prop := strLe a.1 b.1 = true

instance : DecidableRel pairRel := fun a b => inferInstanceAs (Decidable (strLe a.1 b.1 = true))

/-- `collect_code_files` returns `sorted(files)`; extension/test filtering is
the out-of-scope enumerator's job, so the embedding input is the filtered
list and only the sort is kept. -/
def sortFiles (files : List (String × List String)) : List (String × List String) :=
  List.insertionSort pairRel files

/-- Embedding of `convert_dependency_map`. -/
def convertDependencyMap (imp rev : AList) : List (String × List String × List String) :=
  (sortStrs ((alKeys imp ++ alKeys rev).dedup)).map
    (fun rel => (rel, sortStrs (alGet imp rel), sortStrs (alGet rev rel)))

/-- Embedding of `to_module_boundary_output`. -/
def toModuleBoundaryOutput (mm : ModMap) : List (String × List String × List String) :=
  (sortStrs (mm.map (·.1))).map
    (fun m =>
      let e := (mm.lookup m).getD ([], [])
      (m, sortStrs e.1, sortStrs e.2))

/-- The graph dictionary emitted by `build_graph`.  `apiRoutes` and
`dataModels` carry abstract payloads `ρ`/`μ`. -/
structure GraphOutput (ρ μ : Type) where
  generatedAt : String
  projectRoot : String
  totalFiles : Nat
  totalEdges : Nat
  modulesCount : Nat
  routesCount : Nat
  modelsCount : Nat
  circularCount : Nat
  fileDependencies : List (String × List String × List String)
  moduleBoundaries : List (String × List String × List String)
  apiRoutes : List (String × ρ)
  dataModels : List (String × μ)
  circularDependencies : List (List String)
  warnings : List String
deriving Repr, DecidableEq

/-- Embedding of `build_graph`.  `now` is the `datetime.now().isoformat()`
reading; `routesFn` and `modelsFn` abstract `build_api_route_map` and
`build_data_model_map` as the pure functions of the sorted file list, the
forward map and the truncated contents that the source applies them as. -/
def buildGraph {ρ μ : Type}
    (routesFn : List (String × List String) → AList → List (String × List String) → List (String × ρ))
    (modelsFn : List (String × List String) → List (String × List String) → List (String × μ))
    (resolve : String → List String → List (Option String))
    (projectRoot now : String)
    (files : List (String × List String)) : GraphOutput ρ μ :=
  let fs := sortFiles files
  let bd := buildDependencyGraph resolve fs
  let imp := bd.1
  let rev := bd.2.1
  let rawc := bd.2.2.1
  let warns := bd.2.2.2
  let mb := buildModuleBoundaries imp
  let routes := routesFn fs imp rawc
  let models := modelsFn fs rawc
  let moduleBoundaries := toModuleBoundaryOutput mb.1
  { generatedAt := now,
    projectRoot := projectRoot,
    totalFiles := fs.length,
    totalEdges := (imp.map (fun p => p.2.length)).sum,
    modulesCount := moduleBoundaries.length,
    routesCount := routes.length,
    modelsCount := models.length,
    circularCount := mb.2.length,
    fileDependencies := convertDependencyMap imp rev,
    moduleBoundaries := moduleBoundaries,
    apiRoutes := routes,
    dataModels := models,
    circularDependencies := mb.2,
    warnings := sortStrs warns.dedup }

/-- All fields of the emitted graph except the `generated_at` timestamp. -/
def graphSansTime {ρ μ : Type} (g : GraphOutput ρ μ) :
    String × Nat × Nat × Nat × Nat × Nat × Nat ×
    List (String × List String × List String) × List (String × List String × List String) ×
    List (String × ρ) × List (String × μ) × List (List String) × List String :=
  (g.projectRoot, g.totalFiles, g.totalEdges, g.modulesCount, g.routesCount,
   g.modelsCount, g.circularCount, g.fileDependencies, g.moduleBoundaries,
   g.apiRoutes, g.dataModels, g.circularDependencies, g.warnings)

/-! ### Concrete instance graphs used by the claims -/

/-- Reverse adjacency of the four-file chain D→C→B→A (each importing the
previous): dependents of `A` are `B`, of `B` are `C`, of `C` are `D`. -/
def chainRev4 : AList := [("A", ["B"]), ("B", ["C"]), ("C", ["D"])]

/-- The `i`-th module name of the adversarial chain graph: `i + 1` copies of
`a`, so that names are distinct and sorted along the chain. -/
def chainName (i : Nat) : String := String.mk (List.replicate (i + 1) 'a')

/-- Module chain graph `m₀ → m₁ → ⋯ → m_{n-1}`. -/
def chainGraph (n : Nat) : AList :=
  (List.range (n - 1)).map (fun i => (chainName i, [chainName (i + 1)]))

/-! ### Specification-side shapes for well-formed parameter fragments -/

/-- One comma-separated token of a parameter fragment, as the amended C9
claim describes them: a bare identifier, `name: Type`, `name = default`, or
one of the dropped shapes (empty, `async`, `()`). -/
inductive ParamTok where
  | plain (i : String)
  | typed (i ty : String)
  | dflt (i d : String)
  | emptyTok
  | asyncTok
  | parenTok
deriving Repr, DecidableEq

/-- Concrete text of one token. -/
def renderTok : ParamTok → List Char
  | .plain i => i.toList
  | .typed i ty => i.toList ++ ':' :: ty.toList
  | .dflt i d => i.toList ++ ' ' :: '=' :: ' ' :: d.toList
  | .emptyTok => []
  | .asyncTok => "async".toList
  | .parenTok => "()".toList

/-- The comma-separated fragment of a token list, `", "`-joined as written
in source code. -/
def renderParams : List ParamTok → List Char
  | [] => []
  | [t] => renderTok t
  | t :: ts => renderTok t ++ ',' :: ' ' :: renderParams ts

/-- A well-formed JS identifier: `[A-Za-z_$][\w$]*`. -/
def wfIdentB : List Char → Bool
  | [] => false
  | c :: rest => identHeadChar c && rest.all identTailChar

/-- Well-formedness of a rendered type annotation: nonempty, free of commas
and `=`, and not starting or ending in stripped characters. -/
def wfTyB : List Char → Bool
  | [] => false
  | c :: rest =>
    !pyIsSpace c && (c :: rest).all (fun x => !(x = ',') && !(x = '=')) &&
      !pyIsSpace ((c :: rest).getLastD ' ') && !parenSpace ((c :: rest).getLastD ' ')

/-- Well-formedness of one token. -/
def wfTok : ParamTok → Bool
  | .plain i => wfIdentB i.toList && !(i = "async")
  | .typed i ty => wfIdentB i.toList && !(i = "async") && wfTyB ty.toList
  | .dflt i d => wfIdentB i.toList && !(i = "async") && d.toList.all (fun x => !(x = ','))
  | .emptyTok => true
  | .asyncTok => true
  | .parenTok => true

/-- The parameter name a token contributes, `none` for dropped tokens. -/
def tokResult : ParamTok → Option (List Char)
  | .plain i => some i.toList
  | .typed i _ => some i.toList
  | .dflt i _ => some i.toList
  | .emptyTok => none
  | .asyncTok => none
  | .parenTok => none

/-- Entry invariant of the adjacency dicts: every value set is deduplicated
and contains no self-edge. -/
def edgeInv (m : AList) : Prop :=
  ∀ p ∈ m, (p.2 : List String).Nodup ∧ p.1 ∉ p.2

/-! ## Theorems -/

theorem scanDepthLoop_bounds (ls : List (List Char)) :
    ∀ depth opened st idx r, scanDepthLoop depth opened st idx ls = some r →
      idx ≤ r ∧ r < idx + ls.length := by
  induction ls with
  | nil => intro _ _ _ _ _ h; simp [scanDepthLoop] at h
  | cons line rest ih =>
    intro depth opened st idx r h
    rw [scanDepthLoop] at h
    split at h
    · cases h; simp only [List.length_cons]; omega
    · have := ih _ _ _ _ _ h
      simp only [List.length_cons]
      omega

theorem siblingLoop_bounds (ls : List (List Char)) :
    ∀ startIdx sI idx r, startIdx < idx → siblingLoop startIdx sI idx ls = some r →
      startIdx ≤ r ∧ r < idx + ls.length := by
  induction ls with
  | nil => intro _ _ _ _ _ h; simp [siblingLoop] at h
  | cons line rest ih =>
    intro startIdx sI idx r hlt h
    rw [siblingLoop] at h
    split at h
    · have := ih _ _ _ _ (by omega) h
      simp only [List.length_cons]
      omega
    · split at h
      · split at h
        · split at h <;> (cases h; simp only [List.length_cons]; omega)
        · have := ih _ _ _ _ (by omega) h
          simp only [List.length_cons]
          omega
      · have := ih _ _ _ _ (by omega) h
        simp only [List.length_cons]
        omega

/-- C10: for every line list and every in-range start index, `estimate_js_end`
returns an index `r` with `start_idx ≤ r < len(lines)` — the depth loop, the
sibling fallback and the final `min(start_idx + 50, len(lines) - 1)` cap each
yield an in-range index — and it returns `none` exactly when the start index
is out of range, so the parse-failure warning branches of its callers are
unreachable for in-range starts. -/
theorem estimateJsEnd_total (lines : List (List Char)) (startIdx : Nat) :
    (startIdx < lines.length →
      ∃ r, estimateJsEnd lines startIdx = some r ∧ startIdx ≤ r ∧ r < lines.length) ∧
    (lines.length ≤ startIdx → estimateJsEnd lines startIdx = none) := by
  constructor
  · intro hlt
    rw [estimateJsEnd]
    rw [if_neg (by omega)]
    dsimp only
    cases hscan : scanDepthLoop 0 false {} startIdx
        ((lines.drop startIdx).take (min (startIdx + 2000) lines.length - startIdx)) with
    | some i =>
      refine ⟨i, rfl, ?_⟩
      have hb := scanDepthLoop_bounds _ _ _ _ _ _ hscan
      have hlen : ((lines.drop startIdx).take (min (startIdx + 2000) lines.length - startIdx)).length
          = min (startIdx + 2000) lines.length - startIdx := by
        simp [List.length_take, List.length_drop]
        omega
      rw [hlen] at hb
      omega
    | none =>
      cases hsib : siblingLoop startIdx
          (((lines.get? startIdx).getD []).length -
            (lstripChars ((lines.get? startIdx).getD [])).length)
          (startIdx + 1)
          ((lines.drop (startIdx + 1)).take (min (startIdx + 2000) lines.length - (startIdx + 1))) with
      | some i =>
        refine ⟨i, rfl, ?_⟩
        have hb := siblingLoop_bounds _ _ _ _ _ (by omega) hsib
        have hlen : ((lines.drop (startIdx + 1)).take
            (min (startIdx + 2000) lines.length - (startIdx + 1))).length
            ≤ min (startIdx + 2000) lines.length - (startIdx + 1) := by
          simp [List.length_take, List.length_drop]
        omega
      | none =>
        exact ⟨min (startIdx + 50) (lines.length - 1), rfl, by omega, by omega⟩
  · intro hge
    rw [estimateJsEnd, if_pos (by omega)]

/-- Witness for `estimateJsEnd_total` at a concrete two-line input. -/
theorem estimateJsEnd_total_witness :
    (0 < ([[obrace], [cbrace]] : List (List Char)).length) ∧
      ∃ r, estimateJsEnd [[obrace], [cbrace]] 0 = some r ∧ 0 ≤ r ∧
        r < ([[obrace], [cbrace]] : List (List Char)).length :=
  ⟨by decide, (estimateJsEnd_total [[obrace], [cbrace]] 0).1 (by decide)⟩

theorem jsBraceLoop_cons_shift (b : Char) (line : List Char) :
    ∀ fuel idx st o c,
      jsBraceLoop (b :: line) fuel (idx + 1) st o c = jsBraceLoop line fuel idx st o c := by
  intro fuel
  induction fuel with
  | zero => intro idx st o c; rfl
  | succ f ih =>
    intro idx st o c
    rw [jsBraceLoop, jsBraceLoop]
    simp only [List.length_cons, List.getD, List.get?_cons_succ,
      Nat.add_le_add_iff_right, show ∀ n : Nat, n + 2 = n + 1 + 1 from fun _ => rfl, ih]

/-- C2 counterexample: the two one-line programs differ only in an extra
unbalanced `{` inside the single-quoted string (position 4 of the first
line), yet the block scanner ends the block at line 0 with it and at line 1
without it — the extra brace lands on an escape (`'\{'` closes the string
where `'\'` leaves it open), changing every later count. -/
theorem estimateJsEnd_quotedBrace_counterexample :
    ([obrace, ' ', squote, bslash, obrace, squote, ' ', cbrace] : List Char).eraseIdx 4
        = [obrace, ' ', squote, bslash, squote, ' ', cbrace] ∧
      estimateJsEnd [[obrace, ' ', squote, bslash, obrace, squote, ' ', cbrace], ['x']] 0
          = some 0 ∧
      estimateJsEnd [[obrace, ' ', squote, bslash, squote, ' ', cbrace], ['x']] 0
          = some 1 := by
  decide

/-- C2 (amended): while any string or block-comment state is active, a
character contributes nothing to the open/close brace counts; in particular
an extra unbalanced `{` or `}` at a scan position where such a state is
active with the escape flag clear (as at the start of every line, the scanner
clearing the flag at each line end) leaves `js_brace_counts` — counts and
resulting state — unchanged.  The escape-flag proviso is forced by
`estimateJsEnd_quotedBrace_counterexample`.  The invariance stops at
`js_brace_counts`: the computed block end itself can still change, because
the sibling-declaration fallback of `estimate_js_end` reads raw text with no
string-state tracking — see `estimateJsEnd_siblingFallback_stateBlind`. -/
theorem jsBraceCounts_stringBrace_amended (b : Char) (line : List Char) (st : JsBraceState)
    (hb : b = obrace ∨ b = cbrace)
    (hactive : (st.inBlockComment || st.inSingle || st.inDouble || st.inTemplate) = true)
    (hesc : st.escaped = false) :
    jsBraceCounts (b :: line) st = jsBraceCounts line st := by
  have hstep : ∀ o c, jsBraceLoop (b :: line) (line.length + 1) 0 st o c
      = jsBraceLoop line line.length 0 st o c := by
    intro o c
    rw [jsBraceLoop]
    rw [if_neg (by simp)]
    have hb1 : (b = '*') = False := by
      rcases hb with h | h <;> subst h <;> simp [obrace, cbrace]
    have hb2 : (b = bslash) = False := by
      rcases hb with h | h <;> subst h <;> decide
    have hb3 : (b = squote) = False := by
      rcases hb with h | h <;> subst h <;> decide
    have hb4 : (b = dquote) = False := by
      rcases hb with h | h <;> subst h <;> decide
    have hb5 : (b = backquote) = False := by
      rcases hb with h | h <;> subst h <;> decide
    by_cases hA : st.inBlockComment
    · simp [hA, hb1, jsBraceLoop_cons_shift]
    · by_cases hB : st.inSingle
      · simp [hA, hB, hb2, hb3, hesc, jsBraceLoop_cons_shift]
      · by_cases hC : st.inDouble
        · simp [hA, hB, hC, hb2, hb4, hesc, jsBraceLoop_cons_shift]
        · by_cases hD : st.inTemplate
          · simp [hA, hB, hC, hD, hb2, hb5, hesc, jsBraceLoop_cons_shift]
          · simp [hA, hB, hC, hD] at hactive
  simp only [jsBraceCounts, List.length_cons]
  rw [hstep]

/-- Witness for `jsBraceCounts_stringBrace_amended` inside a single-quoted
string state. -/
theorem jsBraceCounts_stringBrace_amended_witness :
    (obrace = obrace ∨ obrace = cbrace) ∧
      ((({ inSingle := true } : JsBraceState).inBlockComment ||
        ({ inSingle := true } : JsBraceState).inSingle ||
        ({ inSingle := true } : JsBraceState).inDouble ||
        ({ inSingle := true } : JsBraceState).inTemplate) = true) ∧
      (({ inSingle := true } : JsBraceState).escaped = false) ∧
      jsBraceCounts (obrace :: ['x', squote, cbrace]) { inSingle := true }
        = jsBraceCounts ['x', squote, cbrace] { inSingle := true } :=
  ⟨Or.inl rfl, by decide, by decide,
   jsBraceCounts_stringBrace_amended obrace ['x', squote, cbrace] { inSingle := true }
     (Or.inl rfl) (by decide) (by decide)⟩

/-- Even when the extra quoted brace leaves every count and state of
`js_brace_counts` unchanged (single-quote state active across the line,
escape clear), the block end computed by `estimate_js_end` still changes:
its sibling-declaration fallback matches raw text with no string-state
tracking, so the brace hides the `const` sibling line and the end moves from
0 to the fixed cap 2. -/
theorem estimateJsEnd_siblingFallback_stateBlind :
    jsBraceCounts (obrace :: ('c' :: 'o' :: 'n' :: 's' :: 't' :: ' ' :: 'a' :: []))
        (jsBraceCounts ['x', ' ', '=', ' ', squote] {}).2.2
      = jsBraceCounts ('c' :: 'o' :: 'n' :: 's' :: 't' :: ' ' :: 'a' :: [])
        (jsBraceCounts ['x', ' ', '=', ' ', squote] {}).2.2 ∧
      estimateJsEnd [['x', ' ', '=', ' ', squote],
        'c' :: 'o' :: 'n' :: 's' :: 't' :: ' ' :: 'a' :: [], [squote]] 0 = some 0 ∧
      estimateJsEnd [['x', ' ', '=', ' ', squote],
        obrace :: ('c' :: 'o' :: 'n' :: 's' :: 't' :: ' ' :: 'a' :: []), [squote]] 0
        = some 2 := by
  decide

theorem readLimitedLoop_no_warning (rel : String) :
    ∀ (raw : List String) (n : Nat) (acc : List String), n + raw.length ≤ 2001 →
      readLimitedLoop rel raw n acc
        = (acc.reverse ++ (raw.take (501 - n)).map rstripNL, []) := by
  intro raw
  induction raw with
  | nil => intro n acc _; simp [readLimitedLoop]
  | cons l rest ih =>
    intro n acc hle
    rw [readLimitedLoop]
    rw [if_neg (by simp at hle; omega)]
    by_cases h5 : n ≤ 500
    · rw [if_pos h5]
      rw [ih (n + 1) _ (by simp at hle; omega)]
      have ht : 501 - n = (501 - (n + 1)) + 1 := by omega
      rw [ht, List.take_succ_cons]
      simp
    · rw [if_neg h5]
      rw [ih (n + 1) _ (by simp at hle; omega)]
      have ht : 501 - n = 0 := by omega
      have ht2 : 501 - (n + 1) = 0 := by omega
      rw [ht, ht2]
      simp

/-- C6 (code bug): a file of 501..2000 lines is truncated to its first 500
lines, yet `read_limited` appends no warning — the truncation guard keeps
lines `1..500` but only warns past line `2000`, so the truncation of any file
in that range is silent, contradicting the claim (and the spec) that any
truncation is reported. -/
theorem readLimited_silentTruncation (rel : String) (raw : List String)
    (h1 : 500 < raw.length) (h2 : raw.length ≤ 2000) :
    (readLimited rel raw).1 = (raw.take 500).map rstripNL ∧
      (readLimited rel raw).1.length < raw.length ∧
      (readLimited rel raw).2 = [] := by
  have h := readLimitedLoop_no_warning rel raw 1 [] (by omega)
  rw [readLimited, h]
  refine ⟨by simp, ?_, rfl⟩
  simp only [List.reverse_nil, List.nil_append, List.length_map, List.length_take]
  omega

/-- Witness for `readLimited_silentTruncation`: a 600-line file. -/
theorem readLimited_silentTruncation_witness :
    (500 < (List.replicate 600 "x").length ∧ (List.replicate 600 "x").length ≤ 2000) ∧
      (readLimited "big.py" (List.replicate 600 "x")).1
          = ((List.replicate 600 "x").take 500).map rstripNL ∧
        (readLimited "big.py" (List.replicate 600 "x")).1.length
          < (List.replicate 600 "x").length ∧
        (readLimited "big.py" (List.replicate 600 "x")).2 = [] :=
  ⟨⟨by rw [List.length_replicate]; omega, by rw [List.length_replicate]; omega⟩,
   readLimited_silentTruncation "big.py" (List.replicate 600 "x")
     (by rw [List.length_replicate]; omega) (by rw [List.length_replicate]; omega)⟩

/-! ### C4: builder invariants -/

theorem edgeInv_nil : edgeInv [] := fun p hp => absurd hp (List.not_mem_nil p)

theorem lookup_mem : ∀ (m : AList) (k : String) (vs : List String),
    m.lookup k = some vs → (k, vs) ∈ m := by
  intro m
  induction m with
  | nil => intro k vs h; simp [List.lookup] at h
  | cons hd tl ih =>
    intro k vs h
    simp only [List.lookup] at h
    split at h
    · rename_i hbe
      cases h
      have : k = hd.1 := beq_iff_eq.mp hbe
      subst this
      simp
    · exact List.mem_cons_of_mem hd (ih k vs h)

theorem edgeInv_alAdd : ∀ (m : AList) (k v : String), edgeInv m → v ≠ k →
    edgeInv (alAdd m k v) := by
  intro m
  induction m with
  | nil =>
    intro k v _ hne p hp
    simp only [alAdd, List.mem_singleton] at hp
    subst hp
    exact ⟨List.nodup_singleton v, by simp [hne.symm]⟩
  | cons hd tl ih =>
    obtain ⟨k0, vs⟩ := hd
    intro k v hInv hne p hp
    have hhd : vs.Nodup ∧ k0 ∉ vs := by simpa using hInv (k0, vs) (by simp)
    have htl : edgeInv tl := fun q hq => hInv q (List.mem_cons_of_mem _ hq)
    by_cases hk : k0 = k
    · rw [alAdd, if_pos hk] at hp
      rcases List.mem_cons.mp hp with hp1 | hp2
      · subst hp1
        by_cases hv : v ∈ vs
        · simpa [hv] using hhd
        · refine ⟨?_, ?_⟩
          · show (if v ∈ vs then vs else vs ++ [v]).Nodup
            rw [if_neg hv]
            exact List.Nodup.append hhd.1 (List.nodup_singleton v)
              (by intro x hx hxs; rw [List.mem_singleton] at hxs; exact hv (hxs ▸ hx))
          · show k0 ∉ (if v ∈ vs then vs else vs ++ [v])
            rw [if_neg hv]
            simp only [List.mem_append, List.mem_singleton]
            rintro (hmem | hveq)
            · exact hhd.2 hmem
            · exact hne (hveq.symm.trans hk)
      · exact htl p hp2
    · rw [alAdd, if_neg hk] at hp
      rcases List.mem_cons.mp hp with hp1 | hp2
      · subst hp1; exact hhd
      · exact ih k v htl hne p hp2

theorem edgeInv_alSetdefault (m : AList) (k : String) (h : edgeInv m) :
    edgeInv (alSetdefault m k) := by
  rw [alSetdefault]
  split
  · exact h
  · intro p hp
    rcases List.mem_append.mp hp with hp1 | hp2
    · exact h p hp1
    · simp only [List.mem_singleton] at hp2
      subst hp2
      exact ⟨List.nodup_nil, by simp⟩

theorem edgeInv_addEdges : ∀ (outs : List (Option String)) (rel : String)
    (imp rev : AList), edgeInv imp → edgeInv rev →
      edgeInv (addEdges rel outs imp rev).1 ∧ edgeInv (addEdges rel outs imp rev).2 := by
  intro outs
  induction outs with
  | nil => intro rel imp rev h1 h2; exact ⟨h1, h2⟩
  | cons o rest ih =>
    intro rel imp rev h1 h2
    match o with
    | none => exact ih rel imp rev h1 h2
    | some t =>
      rw [addEdges]
      split
      · exact ih rel imp rev h1 h2
      · rename_i hne
        exact ih rel _ _ (edgeInv_alAdd imp rel t h1 (fun he => hne he))
          (edgeInv_alAdd rev t rel h2 (fun he => hne he.symm))

theorem edgeInv_buildDependencyGraphLoop :
    ∀ (files : List (String × List String)) resolve imp rev rawc warns,
      edgeInv imp → edgeInv rev →
      edgeInv (buildDependencyGraphLoop resolve files imp rev rawc warns).1 ∧
        edgeInv (buildDependencyGraphLoop resolve files imp rev rawc warns).2.1 := by
  intro files
  induction files with
  | nil => intro resolve imp rev rawc warns h1 h2; exact ⟨h1, h2⟩
  | cons f rest ih =>
    obtain ⟨rel, raw⟩ := f
    intro resolve imp rev rawc warns h1 h2
    rw [buildDependencyGraphLoop]
    split
    · exact ih resolve imp rev _ _ h1 h2
    · have he := edgeInv_addEdges (resolve rel (readLimited rel raw).1) rel imp rev h1 h2
      exact ih resolve _ _ _ _ he.1 he.2

theorem edgeInv_foldSetdefault :
    ∀ (files : List (String × List String)) (m : AList), edgeInv m →
      edgeInv (files.foldl (fun m f => alSetdefault m f.1) m) := by
  intro files
  induction files with
  | nil => intro m h; exact h
  | cons f rest ih =>
    intro m h
    exact ih _ (edgeInv_alSetdefault m f.1 h)

theorem lookup_isSome_append_left {β : Type} :
    ∀ (l1 l2 : List (String × β)) (k : String), ((l1.lookup k).isSome) →
      (((l1 ++ l2).lookup k).isSome) := by
  intro l1
  induction l1 with
  | nil => intro l2 k h; simp [List.lookup] at h
  | cons hd tl ih =>
    intro l2 k h
    simp only [List.cons_append, List.lookup] at h ⊢
    split at h <;> rename_i hbe
    · simp
    · exact ih l2 k h

theorem lookup_append_none {β : Type} :
    ∀ (l1 l2 : List (String × β)) (k : String), l1.lookup k = none →
      (l1 ++ l2).lookup k = l2.lookup k := by
  intro l1
  induction l1 with
  | nil => intro l2 k _; rfl
  | cons hd tl ih =>
    intro l2 k h
    simp only [List.cons_append, List.lookup] at h ⊢
    split at h <;> rename_i hbe
    · cases h
    · exact ih l2 k h

theorem alSetdefault_lookup_isSome_self (m : AList) (k : String) :
    ((alSetdefault m k).lookup k).isSome := by
  rw [alSetdefault]
  split
  · assumption
  · rename_i hnone
    rw [lookup_append_none m [(k, [])] k (by
      cases hm : m.lookup k
      · rfl
      · rw [hm] at hnone; simp at hnone)]
    simp [List.lookup]

theorem alSetdefault_lookup_isSome_preserved (m : AList) (k k' : String)
    (h : (m.lookup k').isSome) : ((alSetdefault m k).lookup k').isSome := by
  rw [alSetdefault]
  split
  · exact h
  · exact lookup_isSome_append_left m [(k, [])] k' h

theorem foldSetdefault_lookup_isSome_preserved :
    ∀ (files : List (String × List String)) (m : AList) (k : String),
      (m.lookup k).isSome →
      (((files.foldl (fun m f => alSetdefault m f.1) m).lookup k).isSome) := by
  intro files
  induction files with
  | nil => intro m k h; exact h
  | cons f rest ih =>
    intro m k h
    exact ih _ k (alSetdefault_lookup_isSome_preserved m f.1 k h)

theorem foldSetdefault_lookup_isSome_mem :
    ∀ (files : List (String × List String)) (m : AList) (f : String × List String),
      f ∈ files →
      (((files.foldl (fun m f => alSetdefault m f.1) m).lookup f.1).isSome) := by
  intro files
  induction files with
  | nil => intro m f h; cases h
  | cons g rest ih =>
    intro m f h
    rcases List.mem_cons.mp h with h1 | h2
    · subst h1
      exact foldSetdefault_lookup_isSome_preserved rest _ f.1
        (alSetdefault_lookup_isSome_self m f.1)
    · exact ih _ f h2

theorem edgeInv_buildDependencyMaps :
    ∀ (scanFiles : List String) (resolve : String → List (Option String))
      (imp rev : AList), edgeInv imp → edgeInv rev →
      edgeInv (buildDependencyMaps resolve scanFiles imp rev).1 ∧
        edgeInv (buildDependencyMaps resolve scanFiles imp rev).2 := by
  intro scanFiles
  induction scanFiles with
  | nil => intro resolve imp rev h1 h2; exact ⟨h1, h2⟩
  | cons rel rest ih =>
    intro resolve imp rev h1 h2
    rw [buildDependencyMaps]
    have he := edgeInv_addEdges (resolve rel) rel imp rev h1 h2
    exact ih resolve _ _ he.1 he.2

/-- C4 counterexample: in the impact-prediction builder
(`build_dependency_maps`), a file with zero edges appears as a key of
neither adjacency map — there is no `setdefault` pass there, so the claim's
part (1) fails for it. -/
theorem buildDependencyMaps_zeroEdgeKey_counterexample :
    (buildDependencyMaps (fun _ => []) ["a.py"] [] []).1.lookup "a.py" = none ∧
      (buildDependencyMaps (fun _ => []) ["a.py"] [] []).2.lookup "a.py" = none := by
  decide

/-- C4 (amended): the knowledge-graph builder (`build_dependency_graph`)
keys every encountered file in both maps even with zero edges, and both
builders deduplicate edges and drop self-edges; only the impact-prediction
builder (`build_dependency_maps`) omits zero-edge files from its maps (it
returns the file set separately). -/
theorem builderInvariants_amended :
    (∀ (resolve : String → List String → List (Option String))
        (files : List (String × List String)) (f : String × List String), f ∈ files →
        ((buildDependencyGraph resolve files).1.lookup f.1).isSome ∧
          ((buildDependencyGraph resolve files).2.1.lookup f.1).isSome) ∧
      (∀ (resolve : String → List String → List (Option String))
          (files : List (String × List String)) (k : String) (vs : List String),
          ((buildDependencyGraph resolve files).1.lookup k = some vs ∨
            (buildDependencyGraph resolve files).2.1.lookup k = some vs) →
          vs.Nodup ∧ k ∉ vs) ∧
      (∀ (resolve : String → List (Option String)) (scanFiles : List String)
          (k : String) (vs : List String),
          ((buildDependencyMaps resolve scanFiles [] []).1.lookup k = some vs ∨
            (buildDependencyMaps resolve scanFiles [] []).2.lookup k = some vs) →
          vs.Nodup ∧ k ∉ vs) := by
  refine ⟨?_, ?_, ?_⟩
  · intro resolve files f hf
    exact ⟨foldSetdefault_lookup_isSome_mem files _ f hf,
      foldSetdefault_lookup_isSome_mem files _ f hf⟩
  · intro resolve files k vs h
    have hloop := edgeInv_buildDependencyGraphLoop files resolve [] [] [] []
      edgeInv_nil edgeInv_nil
    have h1 := edgeInv_foldSetdefault files _ hloop.1
    have h2 := edgeInv_foldSetdefault files _ hloop.2
    rcases h with h | h
    · exact h1 (k, vs) (lookup_mem _ k vs h)
    · exact h2 (k, vs) (lookup_mem _ k vs h)
  · intro resolve scanFiles k vs h
    have hm := edgeInv_buildDependencyMaps scanFiles resolve [] [] edgeInv_nil edgeInv_nil
    rcases h with h | h
    · exact hm.1 (k, vs) (lookup_mem _ k vs h)
    · exact hm.2 (k, vs) (lookup_mem _ k vs h)

/-- Witness for `builderInvariants_amended`: a one-file project with no
resolvable imports still keys the file in both maps. -/
theorem builderInvariants_amended_witness :
    ((buildDependencyGraph (fun _ _ => []) [("a.py", ["x"])]).1.lookup "a.py").isSome ∧
      ((buildDependencyGraph (fun _ _ => []) [("a.py", ["x"])]).2.1.lookup "a.py").isSome :=
  builderInvariants_amended.1 (fun _ _ => []) [("a.py", ["x"])] ("a.py", ["x"]) (by decide)

/-! ### C5: candidate expansion and first-existing choice -/

/-- C5 counterexample: for the extensionless base `foo` the first candidate
is `foo.ts`, the bare base is never a candidate, and on a filesystem whose
only real file is `foo` itself resolution fails — so the base is not "tried
verbatim first". -/
theorem expandCandidates_noVerbatim_counterexample :
    (expandCandidates ["foo"]).head? = some ["foo.ts"] ∧
      ["foo"] ∉ expandCandidates ["foo"] ∧
      chooseExisting some (fun p => p == ["foo"]) (fun p => p == ["foo"])
          (expandCandidates ["foo"]) = none := by
  decide

theorem withSuffix_ne_self (base : PyPath) (ext : String)
    (hsuf : (pathSuffix base).isEmpty = true) (hext : ext.length ≠ 0) :
    withSuffix base ext ≠ base := by
  intro heq
  cases hlast : base.getLast? with
  | none =>
    have hbase : base = [] := List.getLast?_eq_none_iff.mp hlast
    subst hbase
    simp [withSuffix] at heq
  | some name =>
    have hlen := congrArg List.getLast? heq
    rw [withSuffix] at hlen
    rw [List.getLast?_concat] at hlen
    rw [hlast] at hlen
    simp only [Option.getD_some] at hlen
    have hns : nameSuffix name.toList = [] := by
      rw [pathSuffix, hlast] at hsuf
      exact List.isEmpty_iff.mp hsuf
    rw [hns] at hlen
    simp only [List.length_nil, Nat.sub_zero, List.take_length] at hlen
    have hstem : String.mk name.toList = name := rfl
    rw [hstem] at hlen
    have := congrArg String.length (Option.some.inj hlen)
    rw [String.length_append] at this
    omega

/-- C5 (amended): an extensionless base expands to the eight extension
candidates then the eight `index` candidates — the bare base is never among
them — while a base with an extension is tried verbatim and alone; and
`choose_existing` returns the first candidate that resolves and exists (in
the pre-collected set or as a real file inside the root), `none` when none
does (the caller then drops the import without an error). -/
theorem expandCandidates_amended :
    (∀ base : PyPath, (pathSuffix base).isEmpty = true →
        expandCandidates base =
          RESOLVE_EXTENSIONS.map (withSuffix base) ++
            RESOLVE_EXTENSIONS.map (fun ext => base ++ ["index" ++ ext]) ∧
          base ∉ expandCandidates base) ∧
      (∀ base : PyPath, (pathSuffix base).isEmpty = false →
        expandCandidates base = [base]) ∧
      (∀ (rf : PyPath → Option PyPath) (em rr : PyPath → Bool) (cands : List PyPath),
        chooseExisting rf em rr cands =
          (cands.filterMap (fun cand =>
            (rf cand).bind (fun r => if em r || rr r then some r else none))).head?) := by
  refine ⟨?_, ?_, ?_⟩
  · intro base hsuf
    constructor
    · rw [expandCandidates, if_pos hsuf]
    · intro hmem
      rw [expandCandidates, if_pos hsuf] at hmem
      rcases List.mem_append.mp hmem with h | h
      · obtain ⟨ext, hin, heq⟩ := List.mem_map.mp h
        refine withSuffix_ne_self base ext hsuf ?_ heq
        simp only [RESOLVE_EXTENSIONS, List.mem_cons, List.not_mem_nil, or_false] at hin
        rcases hin with rfl | rfl | rfl | rfl | rfl | rfl | rfl | rfl <;> decide
      · obtain ⟨ext, _, heq⟩ := List.mem_map.mp h
        have := congrArg List.length heq
        simp at this
  · intro base hsuf
    rw [expandCandidates]
    rw [if_neg (by rw [hsuf]; exact Bool.false_ne_true)]
  · intro rf em rr cands
    induction cands with
    | nil => rfl
    | cons cand rest ih =>
      rw [chooseExisting, List.filterMap_cons]
      cases hr : rf cand with
      | none => simpa using ih
      | some r =>
        by_cases hem : em r
        · simp [hem]
        · by_cases hrr : rr r
          · simp [hem, hrr]
          · simpa [hem, hrr] using ih

/-- Witness for `expandCandidates_amended` at `base = ["utils"]` and a
filesystem containing only `utils.js`. -/
theorem expandCandidates_amended_witness :
    (expandCandidates ["utils"] =
        RESOLVE_EXTENSIONS.map (withSuffix ["utils"]) ++
          RESOLVE_EXTENSIONS.map (fun ext => ["utils"] ++ ["index" ++ ext]) ∧
      ["utils"] ∉ expandCandidates ["utils"]) ∧
      chooseExisting some (fun p => p == ["utils.js"]) (fun p => p == ["utils.js"])
          (expandCandidates ["utils"]) =
        ((expandCandidates ["utils"]).filterMap (fun cand =>
          (some cand).bind (fun r =>
            if (r == ["utils.js"]) || (r == ["utils.js"]) then some r else none))).head? :=
  ⟨(expandCandidates_amended.1 ["utils"] (by decide)),
   expandCandidates_amended.2.2 some (fun p => p == ["utils.js"]) (fun p => p == ["utils.js"])
     (expandCandidates ["utils"])⟩

/-! ### C7: recursion nesting of `strong_connect` -/

theorem chainName_inj : ∀ i j, chainName i = chainName j → i = j := by
  intro i j h
  have := congrArg (fun s : String => s.toList.length) h
  simpa [chainName] using this

theorem anSet_lookup_ne : ∀ (m : List (String × Nat)) (k k' : String) (v : Nat), k' ≠ k →
    (anSet m k v).lookup k' = m.lookup k' := by
  intro m
  induction m with
  | nil =>
    intro k k' v hne
    simp [anSet, List.lookup, beq_eq_false_iff_ne.mpr hne]
  | cons hd tl ih =>
    obtain ⟨k0, v0⟩ := hd
    intro k k' v hne
    rw [anSet]
    by_cases hk : k0 = k
    · rw [if_pos hk]
      simp only [List.lookup, beq_eq_false_iff_ne.mpr hne, beq_eq_false_iff_ne.mpr (hk ▸ hne)]
    · rw [if_neg hk]
      simp only [List.lookup]
      split
      · rfl
      · exact ih k k' v hne

theorem lookup_map_chain : ∀ (l : List Nat) (j : Nat),
    ((l.map (fun i => (chainName i, [chainName (i + 1)]))).lookup (chainName j))
      = if j ∈ l then some [chainName (j + 1)] else none := by
  intro l
  induction l with
  | nil => intro j; simp [List.lookup]
  | cons i rest ih =>
    intro j
    by_cases hj : j = i
    · subst hj
      simp [List.lookup]
    · have hne : (chainName j == chainName i) = false :=
        beq_eq_false_iff_ne.mpr (fun he => hj (chainName_inj _ _ he))
      simp [List.lookup, hne, ih j, hj]

theorem chainGraph_alGet (n j : Nat) :
    alGet (chainGraph n) (chainName j)
      = if j < n - 1 then [chainName (j + 1)] else [] := by
  rw [alGet, chainGraph, lookup_map_chain]
  by_cases hj : j < n - 1
  · simp [hj, List.mem_range]
  · simp [hj, List.mem_range]

theorem sortStrs_nil : sortStrs [] = [] := rfl

theorem sortStrs_singleton (x : String) : sortStrs [x] = [x] := rfl

theorem strongConnectDepth_chain (n : Nat) :
    ∀ fuel i (st : TarjanSt), i < n →
      (∀ j, i ≤ j → st.indices.lookup (chainName j) = none) →
      n - i ≤ fuel →
      n - i ≤ (strongConnectDepth (chainGraph n) fuel (chainName i) st).2 := by
  intro fuel
  induction fuel with
  | zero => intro i st hin hnone hf; omega
  | succ fuel ih =>
    intro i st hin hnone hf
    simp only [strongConnectDepth]
    by_cases hend : i < n - 1
    · rw [chainGraph_alGet, if_pos hend, sortStrs_singleton]
      simp only [List.foldl_cons, List.foldl_nil]
      have hlook : ((anSet st.indices (chainName i) st.index).lookup
          (chainName (i + 1))) = none := by
        rw [anSet_lookup_ne st.indices (chainName i) (chainName (i + 1)) st.index
          (fun he => by have := chainName_inj _ _ he; omega)]
        exact hnone (i + 1) (by omega)
      have hIH := ih (i + 1)
        { st with
          index := st.index + 1
          indices := anSet st.indices (chainName i) st.index
          lowLinks := anSet st.lowLinks (chainName i) st.index
          stack := chainName i :: st.stack
          onStack := chainName i :: st.onStack }
        (by omega)
        (fun j hj => by
          show (anSet st.indices (chainName i) st.index).lookup (chainName j) = none
          rw [anSet_lookup_ne st.indices (chainName i) (chainName j) st.index
            (fun he => by have := chainName_inj _ _ he; omega)]
          exact hnone j (by omega))
        (by omega)
      simp only [hlook, Option.isNone_none, if_true, Nat.zero_max]
      omega
    · rw [chainGraph_alGet, if_neg hend, sortStrs_nil]
      simp only [List.foldl_nil]
      omega

/-- The instrumentation is faithful: dropping the depth component of
`strongConnectDepth` gives exactly `strongConnect`. -/
theorem strongConnectDepth_fst (g : AList) :
    ∀ fuel node st, (strongConnectDepth g fuel node st).1 = strongConnect g fuel node st := by
  intro fuel
  induction fuel with
  | zero => intro node st; rfl
  | succ fuel ih =>
    intro node st
    simp only [strongConnectDepth, strongConnect]
    congr 1
    have hfold : ∀ (ns : List String) (p : TarjanSt × Nat),
        (ns.foldl (fun (p : TarjanSt × Nat) nb =>
          if (p.1.indices.lookup nb).isNone then
            ({ (strongConnectDepth g fuel nb p.1).1 with
                lowLinks := anSet (strongConnectDepth g fuel nb p.1).1.lowLinks node
                  (min (((strongConnectDepth g fuel nb p.1).1.lowLinks.lookup node).getD 0)
                    (((strongConnectDepth g fuel nb p.1).1.lowLinks.lookup nb).getD 0)) },
              max p.2 (strongConnectDepth g fuel nb p.1).2)
          else if p.1.onStack.contains nb then
            ({ p.1 with
                lowLinks := anSet p.1.lowLinks node
                  (min ((p.1.lowLinks.lookup node).getD 0) ((p.1.indices.lookup nb).getD 0)) },
              p.2)
          else (p.1, p.2)) p).1
        = ns.foldl (fun st nb =>
          if (st.indices.lookup nb).isNone then
            { strongConnect g fuel nb st with
                lowLinks := anSet (strongConnect g fuel nb st).lowLinks node
                  (min (((strongConnect g fuel nb st).lowLinks.lookup node).getD 0)
                    (((strongConnect g fuel nb st).lowLinks.lookup nb).getD 0)) }
          else if st.onStack.contains nb then
            { st with
                lowLinks := anSet st.lowLinks node
                  (min ((st.lowLinks.lookup node).getD 0) ((st.indices.lookup nb).getD 0)) }
          else st) p.1 := by
      intro ns
      induction ns with
      | nil => intro p; rfl
      | cons nb rest ihn =>
        intro p
        simp only [List.foldl_cons]
        rw [ihn]
        congr 1
        by_cases h1 : (p.1.indices.lookup nb).isNone
        · simp only [h1, if_true, ih]
        · simp only [h1, Bool.false_eq_true, if_false]
          split <;> rfl
    exact hfold (sortStrs (alGet g node)) _

/-- C7 (code bug): `strong_connect` nests one language-level recursive call
per chain node — on the module chain graph `m₀ → ⋯ → m_{n-1}` its recursion
depth from the first node is at least `n`, growing with the graph, whereas
the claim (and the spec) demand an explicit work-stack with nesting bounded
independently of graph size.  (CPython raises `RecursionError` near depth
1000.) -/
theorem strongConnect_depth_unbounded (n fuel : Nat) (h1 : 1 ≤ n) (hf : n ≤ fuel) :
    n ≤ (strongConnectDepth (chainGraph n) fuel (chainName 0) {}).2 := by
  have h := strongConnectDepth_chain n fuel 0 {} (by omega) (fun j _ => rfl) (by omega)
  simpa using h

/-- Witness for `strongConnect_depth_unbounded` on the 3-chain. -/
theorem strongConnect_depth_unbounded_witness :
    1 ≤ 3 ∧ (3 : Nat) ≤ 3 ∧
      3 ≤ (strongConnectDepth (chainGraph 3) 3 (chainName 0) {}).2 :=
  ⟨by decide, by decide, strongConnect_depth_unbounded 3 3 (by decide) (by decide)⟩

/-! ### C9: parameter extraction -/

theorem identTailChar_props {c : Char} (h : identTailChar c = true) :
    pyIsSpace c = false ∧ parenSpace c = false ∧ c ≠ '.' ∧ c ≠ '=' ∧ c ≠ ',' ∧ c ≠ ':' := by
  refine ⟨?_, ?_, ?_, ?_, ?_, ?_⟩
  · cases hc : pyIsSpace c
    · rfl
    · simp only [pyIsSpace, Bool.or_eq_true, decide_eq_true_eq] at hc
      rcases hc with ((((hc | hc) | hc) | hc) | hc) | hc <;>
        (subst hc; exact absurd h (by decide))
  · cases hc : parenSpace c
    · rfl
    · simp only [parenSpace, Bool.or_eq_true, decide_eq_true_eq] at hc
      rcases hc with (hc | hc) | hc <;> (subst hc; exact absurd h (by decide))
  · intro hc; subst hc; exact absurd h (by decide)
  · intro hc; subst hc; exact absurd h (by decide)
  · intro hc; subst hc; exact absurd h (by decide)
  · intro hc; subst hc; exact absurd h (by decide)

theorem identHeadChar_tail {c : Char} (h : identHeadChar c = true) : identTailChar c = true := by
  simp only [identHeadChar, Bool.or_eq_true, decide_eq_true_eq] at h
  simp only [identTailChar, Char.isAlphanum, Bool.or_eq_true, decide_eq_true_eq]
  rcases h with (h | h) | h
  · exact Or.inl (Or.inl (Or.inl h))
  · exact Or.inl (Or.inr h)
  · exact Or.inr h

theorem wfIdentB_all {l : List Char} (h : wfIdentB l = true) :
    ∀ x ∈ l, identTailChar x = true := by
  match l with
  | [] => intro x hx; cases hx
  | c :: rest =>
    simp only [wfIdentB, Bool.and_eq_true] at h
    intro x hx
    rcases List.mem_cons.mp hx with h1 | h2
    · exact h1 ▸ identHeadChar_tail h.1
    · exact List.all_eq_true.mp h.2 x h2

theorem dropWhile_eq_self_of_head {p : Char → Bool} :
    ∀ {l : List Char}, (∀ c, l.head? = some c → p c = false) → l.dropWhile p = l := by
  intro l h
  match l with
  | [] => rfl
  | c :: rest => simp [List.dropWhile_cons, h c rfl]

theorem stripWhile_eq_self {p : Char → Bool} {l : List Char}
    (h1 : ∀ c, l.head? = some c → p c = false)
    (h2 : ∀ c, l.getLast? = some c → p c = false) : stripWhile p l = l := by
  rw [stripWhile, dropWhile_eq_self_of_head h1, dropWhile_eq_self_of_head
    (fun c hc => h2 c (by rwa [← List.head?_reverse])), List.reverse_reverse]

theorem takeWhile_eq_self_of_all {p : Char → Bool} :
    ∀ {l : List Char}, (∀ x ∈ l, p x = true) → l.takeWhile p = l := by
  intro l
  induction l with
  | nil => intro _; rfl
  | cons c rest ih =>
    intro h
    rw [List.takeWhile_cons, if_pos (h c (by simp))]
    rw [ih (fun x hx => h x (List.mem_cons_of_mem c hx))]

theorem dropWhile_append_of_all {p : Char → Bool} :
    ∀ (xs ys : List Char), (∀ x ∈ xs, p x = true) →
      (xs ++ ys).dropWhile p = ys.dropWhile p := by
  intro xs
  induction xs with
  | nil => intro ys _; rfl
  | cons c rest ih =>
    intro ys h
    rw [List.cons_append, List.dropWhile_cons, if_pos (h c (by simp))]
    exact ih ys (fun x hx => h x (List.mem_cons_of_mem c hx))

theorem takeWhile_append_of_all {p : Char → Bool} :
    ∀ (xs ys : List Char), (∀ x ∈ xs, p x = true) →
      (xs ++ ys).takeWhile p = xs ++ ys.takeWhile p := by
  intro xs
  induction xs with
  | nil => intro ys _; rfl
  | cons c rest ih =>
    intro ys h
    rw [List.cons_append, List.takeWhile_cons, if_pos (h c (by simp)), ih ys
      (fun x hx => h x (List.mem_cons_of_mem c hx)), List.cons_append]

theorem dropWhile_append_stop {p : Char → Bool} :
    ∀ (xs ys : List Char) (b : Char), p b = false →
      (xs ++ b :: ys).dropWhile p = xs.dropWhile p ++ b :: ys := by
  intro xs
  induction xs with
  | nil => intro ys b hb; simp [List.dropWhile_cons, hb]
  | cons c rest ih =>
    intro ys b hb
    rw [List.cons_append, List.dropWhile_cons, List.dropWhile_cons]
    by_cases hc : p c
    · rw [if_pos hc, if_pos hc, ih ys b hb]
    · rw [if_neg hc, if_neg hc, List.cons_append]

theorem takeWhile_append_stop {p : Char → Bool} :
    ∀ (xs ys : List Char) (b : Char), (∀ x ∈ xs, p x = true) → p b = false →
      (xs ++ b :: ys).takeWhile p = xs := by
  intro xs ys b h hb
  rw [takeWhile_append_of_all xs (b :: ys) h, List.takeWhile_cons, if_neg (by simp [hb])]
  simp

/-- Both strips stop at blocking characters: the part left of a blocking
character survives a strip whole, and only the right tail is right-stripped. -/
theorem stripWhile_append_block {p : Char → Bool} (c0 : Char) (xr ys : List Char) (b : Char)
    (hc0 : p c0 = false) (hb : p b = false) :
    stripWhile p ((c0 :: xr) ++ b :: ys)
      = (c0 :: xr) ++ b :: (ys.reverse.dropWhile p).reverse := by
  rw [stripWhile, List.cons_append, List.dropWhile_cons, if_neg (by simp [hc0]),
    ← List.cons_append, List.reverse_append, List.reverse_cons, List.append_assoc]
  rw [show [b] ++ (c0 :: xr).reverse = b :: (c0 :: xr).reverse from rfl]
  rw [dropWhile_append_stop ys.reverse ((c0 :: xr).reverse) b hb]
  simp [List.append_assoc]

theorem head?_mem {l : List Char} {c : Char} (h : l.head? = some c) : c ∈ l := by
  cases l with
  | nil => cases h
  | cons x rest => simp at h; simp [h]

theorem getLast?_mem {l : List Char} {c : Char} (h : l.getLast? = some c) : c ∈ l := by
  induction l with
  | nil => cases h
  | cons x rest ih =>
    cases hr : rest with
    | nil => subst hr; simp at h; simp [h]
    | cons y rest2 =>
      rw [hr] at ih h
      rw [List.getLast?_cons_cons] at h
      exact List.mem_cons_of_mem x (ih h)

theorem strip_of_allIdent {p : Char → Bool} {i : List Char}
    (hall : ∀ x ∈ i, identTailChar x = true)
    (himp : ∀ x, identTailChar x = true → p x = false) : stripWhile p i = i :=
  stripWhile_eq_self (fun c hc => himp c (hall c (head?_mem hc)))
    (fun c hc => himp c (hall c (getLast?_mem hc)))

theorem matchTypeAnn_ident {c : Char} {rest : List Char}
    (hc : identHeadChar c = true) (hall : ∀ x ∈ rest, identTailChar x = true) :
    matchTypeAnn (c :: rest) = none := by
  rw [matchTypeAnn, if_pos hc]
  rw [List.dropWhile_eq_nil_iff.mpr (fun x hx => hall x hx)]
  rfl

set_option maxHeartbeats 1000000 in
theorem cleanJsParamToken_ident {i : List Char} (hw : wfIdentB i = true)
    (hna : i ≠ "async".toList) : cleanJsParamToken i = some i := by
  have hall := wfIdentB_all hw
  obtain ⟨c, rest, rfl⟩ : ∃ c rest, i = c :: rest := by
    cases i with
    | nil => cases hw
    | cons c rest => exact ⟨c, rest, rfl⟩
  have hhead : identHeadChar c = true := by
    simp only [wfIdentB, Bool.and_eq_true] at hw
    exact hw.1
  have h0 : stripWhile pyIsSpace (c :: rest) = c :: rest :=
    strip_of_allIdent hall (fun x hx => (identTailChar_props hx).1)
  have h1 : stripWhile parenSpace (c :: rest) = c :: rest :=
    strip_of_allIdent hall (fun x hx => (identTailChar_props hx).2.1)
  have h2 : (c :: rest).dropWhile (fun x => decide (x = '.')) = c :: rest := by
    rw [List.dropWhile_cons,
      if_neg (by simpa using (identTailChar_props (hall c (by simp))).2.2.1)]
  have h3 : (c :: rest).takeWhile (fun x => decide (x ≠ '=')) = c :: rest :=
    takeWhile_eq_self_of_all (fun x hx =>
      decide_eq_true ((identTailChar_props (hall x hx)).2.2.2.1))
  have h4 := matchTypeAnn_ident hhead (fun x hx => hall x (List.mem_cons_of_mem c hx))
  have hnp : (c :: rest) ≠ "()".toList := by
    intro he
    have : c = '(' := by
      have := congrArg (fun l => List.head? l) he
      simpa using this
    subst this
    exact absurd hhead (by decide)
  simp only [cleanJsParamToken, h0, h1, h2, h3, h4, List.isEmpty_cons,
    Bool.false_eq_true, if_false]
  rw [if_neg (by
    simp only [Bool.or_eq_true, decide_eq_true_eq]
    rintro (h | h)
    · exact hna h
    · exact hnp h)]

theorem wfTyB_facts {ty : List Char} (h : wfTyB ty = true) :
    ty ≠ [] ∧ (∀ c', ty.head? = some c' → pyIsSpace c' = false) ∧
      (∀ x ∈ ty, ¬x = ',' ∧ ¬x = '=') ∧
      (∀ c', ty.getLast? = some c' → pyIsSpace c' = false ∧ parenSpace c' = false) := by
  match ty with
  | [] => cases h
  | tc :: tyr =>
    simp only [wfTyB, Bool.and_eq_true, Bool.not_eq_eq_eq_not, Bool.not_true,
      List.all_eq_true] at h
    obtain ⟨⟨⟨hhd, hall⟩, hlws⟩, hlp⟩ := h
    refine ⟨by simp, ?_, ?_, ?_⟩
    · intro c' hc'
      simp only [List.head?_cons, Option.some.injEq] at hc'
      exact hc' ▸ hhd
    · intro x hx
      have := hall x hx
      simp only [Bool.and_eq_true, Bool.not_eq_eq_eq_not, Bool.not_true,
        decide_eq_false_iff_not] at this
      exact this
    · intro c' hc'
      have hld : (tc :: tyr).getLastD ' ' = c' := by
        rw [List.getLastD_eq_getLast?, hc']
        rfl
      rw [hld] at hlws hlp
      exact ⟨hlws, hlp⟩

theorem matchTypeAnn_typed {c : Char} {irest ty : List Char}
    (hc : identHeadChar c = true) (hall : ∀ x ∈ irest, identTailChar x = true)
    (hty : wfTyB ty = true) :
    matchTypeAnn ((c :: irest) ++ ':' :: ty) = some (c :: irest) := by
  obtain ⟨tc, tyr, rfl⟩ : ∃ tc tyr, ty = tc :: tyr := by
    match ty with
    | [] => cases hty
    | tc :: tyr => exact ⟨tc, tyr, rfl⟩
  have hfacts := wfTyB_facts hty
  rw [List.cons_append, matchTypeAnn, if_pos hc]
  rw [dropWhile_append_of_all irest _ hall]
  rw [List.dropWhile_cons, if_neg (by decide)]
  rw [List.dropWhile_cons, if_neg (by decide)]
  have htc : pyIsSpace tc = false := hfacts.2.1 tc rfl
  show (if ((tc :: tyr).dropWhile pyIsSpace).isEmpty = true then none
      else some (c :: List.takeWhile identTailChar (irest ++ ':' :: tc :: tyr)))
    = some (c :: irest)
  rw [List.dropWhile_cons, if_neg (by simp [htc])]
  rw [takeWhile_append_of_all irest _ hall]
  rw [List.takeWhile_cons, if_neg (by decide)]
  simp

set_option maxHeartbeats 1000000 in
theorem cleanJsParamToken_typed {i ty : List Char} (hw : wfIdentB i = true)
    (hna : i ≠ "async".toList) (hty : wfTyB ty = true) :
    cleanJsParamToken (i ++ ':' :: ty) = some i := by
  have hall := wfIdentB_all hw
  obtain ⟨c, irest, rfl⟩ : ∃ c irest, i = c :: irest := by
    cases i with
    | nil => cases hw
    | cons c irest => exact ⟨c, irest, rfl⟩
  have hhead : identHeadChar c = true := by
    simp only [wfIdentB, Bool.and_eq_true] at hw
    exact hw.1
  have hfacts := wfTyB_facts hty
  obtain ⟨tc, tyr, rfl⟩ : ∃ tc tyr, ty = tc :: tyr := by
    match ty with
    | [] => cases hty
    | tc :: tyr => exact ⟨tc, tyr, rfl⟩
  obtain ⟨lc, hlc⟩ : ∃ lc, (tc :: tyr).getLast? = some lc := by
    cases hl : (tc :: tyr).getLast? with
    | none => exact absurd (List.getLast?_eq_none_iff.mp hl) (by simp)
    | some lc => exact ⟨lc, rfl⟩
  have hlast : ((c :: irest) ++ ':' :: tc :: tyr).getLast? = some lc := by
    rw [List.getLast?_append]
    rw [List.getLast?_cons_cons, hlc]
    rfl
  have hwsfull : stripWhile pyIsSpace ((c :: irest) ++ ':' :: tc :: tyr)
      = (c :: irest) ++ ':' :: tc :: tyr :=
    stripWhile_eq_self
      (fun c' hc' => by
        rw [List.cons_append, List.head?_cons] at hc'
        cases hc'
        exact (identTailChar_props (hall _ (by simp))).1)
      (fun c' hc' => by
        rw [hlast] at hc'
        cases hc'
        exact (hfacts.2.2.2 _ hlc).1)
  have hpsfull : stripWhile parenSpace ((c :: irest) ++ ':' :: tc :: tyr)
      = (c :: irest) ++ ':' :: tc :: tyr :=
    stripWhile_eq_self
      (fun c' hc' => by
        rw [List.cons_append, List.head?_cons] at hc'
        cases hc'
        exact (identTailChar_props (hall _ (by simp))).2.1)
      (fun c' hc' => by
        rw [hlast] at hc'
        cases hc'
        exact (hfacts.2.2.2 _ hlc).2)
  have hdot : ((c :: irest) ++ ':' :: tc :: tyr).dropWhile (fun x => decide (x = '.'))
      = (c :: irest) ++ ':' :: tc :: tyr := by
    rw [List.cons_append, List.dropWhile_cons,
      if_neg (by simpa using (identTailChar_props (hall c (by simp))).2.2.1)]
  have htake : ((c :: irest) ++ ':' :: tc :: tyr).takeWhile (fun x => decide (x ≠ '='))
      = (c :: irest) ++ ':' :: tc :: tyr :=
    takeWhile_eq_self_of_all (fun x hx => by
      rcases List.mem_append.mp hx with hx | hx
      · exact decide_eq_true ((identTailChar_props (hall x hx)).2.2.2.1)
      · rcases List.mem_cons.mp hx with hx | hx
        · subst hx; decide
        · exact decide_eq_true ((hfacts.2.2.1 x hx).2))
  have hann := matchTypeAnn_typed hhead
    (fun x hx => hall x (List.mem_cons_of_mem c hx)) hty
  have h0 : stripWhile pyIsSpace (c :: irest) = c :: irest :=
    strip_of_allIdent hall (fun x hx => (identTailChar_props hx).1)
  have h1 : stripWhile parenSpace (c :: irest) = c :: irest :=
    strip_of_allIdent hall (fun x hx => (identTailChar_props hx).2.1)
  have hnp : (c :: irest) ≠ "()".toList := by
    intro he
    have : c = '(' := by
      have := congrArg (fun l => List.head? l) he
      simpa using this
    subst this
    exact absurd hhead (by decide)
  simp only [cleanJsParamToken, hwsfull, hpsfull, hdot, htake, hann, h0, h1]
  rw [if_neg (by rw [List.cons_append]; simp)]
  rw [if_neg (by
    simp only [Bool.or_eq_true, decide_eq_true_eq]
    rintro (h | h)
    · exact hna h
    · exact hnp h)]
  rw [if_neg (by simp)]

theorem stripWhile_ident_space {i : List Char} (hw : wfIdentB i = true) :
    stripWhile pyIsSpace (i ++ [' ']) = i := by
  have hall := wfIdentB_all hw
  obtain ⟨c, irest, rfl⟩ : ∃ c irest, i = c :: irest := by
    cases i with
    | nil => cases hw
    | cons c irest => exact ⟨c, irest, rfl⟩
  obtain ⟨lc, hlc⟩ : ∃ lc, (c :: irest).getLast? = some lc := by
    cases hl : (c :: irest).getLast? with
    | none => exact absurd (List.getLast?_eq_none_iff.mp hl) (by simp)
    | some lc => exact ⟨lc, rfl⟩
  rw [stripWhile, List.cons_append, List.dropWhile_cons,
    if_neg (by simpa using (identTailChar_props (hall c (by simp))).1)]
  rw [← List.cons_append, List.reverse_append]
  rw [show ([' '] : List Char).reverse ++ (c :: irest).reverse
      = ' ' :: (c :: irest).reverse from rfl]
  rw [List.dropWhile_cons, if_pos (by decide)]
  rw [dropWhile_eq_self_of_head (fun c' hc' => by
    rw [List.head?_reverse, hlc] at hc'
    cases hc'
    exact (identTailChar_props (hall _ (getLast?_mem hlc))).1)]
  exact List.reverse_reverse _

set_option maxHeartbeats 1000000 in
theorem cleanJsParamToken_dflt {i d : List Char} (hw : wfIdentB i = true)
    (hna : i ≠ "async".toList) :
    cleanJsParamToken (i ++ ' ' :: '=' :: ' ' :: d) = some i := by
  have hall := wfIdentB_all hw
  obtain ⟨c, irest, rfl⟩ : ∃ c irest, i = c :: irest := by
    cases i with
    | nil => cases hw
    | cons c irest => exact ⟨c, irest, rfl⟩
  have hhead : identHeadChar c = true := by
    simp only [wfIdentB, Bool.and_eq_true] at hw
    exact hw.1
  have hcws : pyIsSpace c = false := (identTailChar_props (hall c (by simp))).1
  have hcps : parenSpace c = false := (identTailChar_props (hall c (by simp))).2.1
  have hshape : (c :: irest) ++ ' ' :: '=' :: ' ' :: d
      = c :: ((irest ++ [' ']) ++ '=' :: (' ' :: d)) := by simp
  have h0 : stripWhile pyIsSpace ((c :: irest) ++ ' ' :: '=' :: ' ' :: d)
      = (c :: (irest ++ [' '])) ++ '=' :: ((' ' :: d).reverse.dropWhile pyIsSpace).reverse := by
    rw [hshape, ← List.cons_append]
    exact stripWhile_append_block c (irest ++ [' ']) (' ' :: d) '=' hcws (by decide)
  have h1 : stripWhile parenSpace
      ((c :: (irest ++ [' '])) ++ '=' :: ((' ' :: d).reverse.dropWhile pyIsSpace).reverse)
      = (c :: (irest ++ [' '])) ++
          '=' :: ((((' ' :: d).reverse.dropWhile pyIsSpace).reverse.reverse.dropWhile
            parenSpace).reverse) :=
    stripWhile_append_block c (irest ++ [' ']) _ '=' hcps (by decide)
  have h2 : ((c :: (irest ++ [' '])) ++
        '=' :: ((((' ' :: d).reverse.dropWhile pyIsSpace).reverse.reverse.dropWhile
          parenSpace).reverse)).dropWhile (fun x => decide (x = '.'))
      = (c :: (irest ++ [' '])) ++
          '=' :: ((((' ' :: d).reverse.dropWhile pyIsSpace).reverse.reverse.dropWhile
            parenSpace).reverse) := by
    rw [List.cons_append, List.dropWhile_cons,
      if_neg (by simpa using (identTailChar_props (hall c (by simp))).2.2.1)]
  have h3 : ((c :: (irest ++ [' '])) ++
        '=' :: ((((' ' :: d).reverse.dropWhile pyIsSpace).reverse.reverse.dropWhile
          parenSpace).reverse)).takeWhile (fun x => decide (x ≠ '='))
      = c :: (irest ++ [' ']) := by
    refine takeWhile_append_stop _ _ '=' ?_ (by decide)
    intro x hx
    rcases List.mem_cons.mp hx with hx | hx
    · subst hx
      exact decide_eq_true ((identTailChar_props (hall x (by simp))).2.2.2.1)
    · rcases List.mem_append.mp hx with hx | hx
      · exact decide_eq_true ((identTailChar_props (hall x (List.mem_cons_of_mem c hx))).2.2.2.1)
      · rcases List.mem_singleton.mp hx with rfl
        decide
  have h4 : stripWhile pyIsSpace (c :: (irest ++ [' '])) = c :: irest := by
    rw [← List.cons_append]
    exact stripWhile_ident_space hw
  have hann := matchTypeAnn_ident hhead (fun x hx => hall x (List.mem_cons_of_mem c hx))
  have h5 : stripWhile pyIsSpace (c :: irest) = c :: irest :=
    strip_of_allIdent hall (fun x hx => (identTailChar_props hx).1)
  have h6 : stripWhile parenSpace (c :: irest) = c :: irest :=
    strip_of_allIdent hall (fun x hx => (identTailChar_props hx).2.1)
  have hnp : (c :: irest) ≠ "()".toList := by
    intro he
    have : c = '(' := by
      have := congrArg (fun l => List.head? l) he
      simpa using this
    subst this
    exact absurd hhead (by decide)
  simp only [cleanJsParamToken, h0, h1, h2, h3, h4, hann, h5, h6]
  rw [if_neg (by rw [List.cons_append]; simp)]
  rw [if_neg (by
    simp only [Bool.or_eq_true, decide_eq_true_eq]
    rintro (h | h)
    · exact hna h
    · exact hnp h)]
  rw [if_neg (by simp)]

theorem splitOnCharAux_ne_nil (sep : Char) :
    ∀ (l acc : List Char), splitOnCharAux sep l acc ≠ [] := by
  intro l
  induction l with
  | nil => intro acc h; cases h
  | cons c rest ih =>
    intro acc
    rw [splitOnCharAux]
    split
    · simp
    · exact ih (c :: acc)

theorem splitOnCharAux_acc (sep : Char) : ∀ (l acc : List Char),
    splitOnCharAux sep l acc
      = (acc.reverse ++ (splitOnCharAux sep l []).headD []) :: (splitOnCharAux sep l []).tail := by
  intro l
  induction l with
  | nil => intro acc; simp [splitOnCharAux]
  | cons c rest ih =>
    intro acc
    rw [splitOnCharAux]
    by_cases hc : c = sep
    · rw [if_pos hc]
      rw [show splitOnCharAux sep (c :: rest) [] = [] :: splitOnCharAux sep rest [] from by
        rw [splitOnCharAux, if_pos hc]; rfl]
      simp
    · rw [if_neg hc, ih (c :: acc)]
      rw [show splitOnCharAux sep (c :: rest) [] = splitOnCharAux sep rest [c] from by
        rw [splitOnCharAux, if_neg hc]]
      rw [ih [c]]
      simp

theorem splitOnChar_cons_ne (sep c : Char) (l : List Char) (h : ¬c = sep) :
    splitOnChar sep (c :: l)
      = (c :: (splitOnChar sep l).headD []) :: (splitOnChar sep l).tail := by
  rw [splitOnChar, splitOnCharAux, if_neg h, splitOnCharAux_acc sep l [c]]
  rfl

theorem splitOnChar_no_sep (sep : Char) :
    ∀ (l : List Char), (∀ x ∈ l, ¬x = sep) → splitOnChar sep l = [l] := by
  intro l
  induction l with
  | nil => intro _; rfl
  | cons c rest ih =>
    intro hall
    rw [splitOnChar_cons_ne sep c rest (hall c (by simp))]
    rw [show splitOnChar sep rest = [rest] from ih (fun x hx => hall x (List.mem_cons_of_mem c hx))]
    rfl

theorem splitOnChar_append_sep (sep : Char) :
    ∀ (xs ys : List Char), (∀ x ∈ xs, ¬x = sep) →
      splitOnChar sep (xs ++ sep :: ys) = xs :: splitOnChar sep ys := by
  intro xs
  induction xs with
  | nil =>
    intro ys _
    rw [List.nil_append, splitOnChar, splitOnCharAux, if_pos rfl]
    rfl
  | cons c rest ih =>
    intro ys hall
    rw [List.cons_append, splitOnChar_cons_ne sep c _ (hall c (by simp))]
    rw [ih ys (fun x hx => hall x (List.mem_cons_of_mem c hx))]
    rfl

theorem cleanJsParamToken_cons_space (l : List Char) :
    cleanJsParamToken (' ' :: l) = cleanJsParamToken l := by
  simp only [cleanJsParamToken]
  rw [show stripWhile pyIsSpace (' ' :: l) = stripWhile pyIsSpace l from by
    rw [stripWhile, stripWhile, List.dropWhile_cons, if_pos (by decide)]]

theorem toList_ne_of_ne {s t : String} (h : s ≠ t) : s.toList ≠ t.toList := by
  intro he
  exact h (congrArg String.mk he)

theorem renderTok_no_comma {t : ParamTok} (h : wfTok t = true) :
    ∀ x ∈ renderTok t, ¬x = ',' := by
  cases t with
  | plain i =>
    simp only [wfTok, Bool.and_eq_true] at h
    exact fun x hx => (identTailChar_props (wfIdentB_all h.1 x hx)).2.2.2.2.1
  | typed i ty =>
    simp only [wfTok, Bool.and_eq_true] at h
    intro x hx
    rcases List.mem_append.mp hx with hx | hx
    · exact (identTailChar_props (wfIdentB_all h.1.1 x hx)).2.2.2.2.1
    · rcases List.mem_cons.mp hx with hx | hx
      · subst hx; decide
      · exact ((wfTyB_facts h.2).2.2.1 x hx).1
  | dflt i d =>
    simp only [wfTok, Bool.and_eq_true, List.all_eq_true] at h
    intro x hx
    rcases List.mem_append.mp hx with hx | hx
    · exact (identTailChar_props (wfIdentB_all h.1.1 x hx)).2.2.2.2.1
    · rcases List.mem_cons.mp hx with hx | hx
      · subst hx; decide
      · rcases List.mem_cons.mp hx with hx | hx
        · subst hx; decide
        · rcases List.mem_cons.mp hx with hx | hx
          · subst hx; decide
          · have := h.2 x hx
            simpa using this
  | emptyTok => intro x hx; cases hx
  | asyncTok => decide
  | parenTok => decide

theorem wfTok_ident_ne_async {i : String}
    (h2 : (!(i = "async" : Bool)) = true) : i.toList ≠ "async".toList := by
  refine toList_ne_of_ne ?_
  simpa using h2

theorem clean_renderTok {t : ParamTok} (h : wfTok t = true) :
    cleanJsParamToken (renderTok t) = tokResult t := by
  cases t with
  | plain i =>
    simp only [wfTok, Bool.and_eq_true] at h
    exact cleanJsParamToken_ident h.1 (wfTok_ident_ne_async h.2)
  | typed i ty =>
    simp only [wfTok, Bool.and_eq_true] at h
    exact cleanJsParamToken_typed h.1.1 (wfTok_ident_ne_async h.1.2) h.2
  | dflt i d =>
    simp only [wfTok, Bool.and_eq_true] at h
    exact cleanJsParamToken_dflt h.1.1 (wfTok_ident_ne_async h.1.2)
  | emptyTok => decide
  | asyncTok => decide
  | parenTok => decide

theorem filterMap_clean_space_cons (H : List Char) (T : List (List Char)) :
    List.filterMap cleanJsParamToken ((' ' :: H) :: T)
      = List.filterMap cleanJsParamToken (H :: T) := by
  rw [List.filterMap_cons, List.filterMap_cons, cleanJsParamToken_cons_space]

theorem parseJsParams_renderParams :
    ∀ (ts : List ParamTok), (∀ t ∈ ts, wfTok t = true) →
      parseJsParams (renderParams ts) = ts.filterMap tokResult := by
  intro ts
  induction ts with
  | nil => intro _; rfl
  | cons t ts ih =>
    intro hwf
    cases ts with
    | nil =>
      rw [show renderParams [t] = renderTok t from rfl]
      rw [parseJsParams, splitOnChar_no_sep ',' _ (renderTok_no_comma (hwf t (by simp)))]
      rw [List.filterMap_cons, clean_renderTok (hwf t (by simp))]
      cases htr : tokResult t <;> simp [List.filterMap_cons, htr, List.filterMap_nil]
    | cons t2 ts2 =>
      rw [show renderParams (t :: t2 :: ts2)
          = renderTok t ++ ',' :: ' ' :: renderParams (t2 :: ts2) from rfl]
      rw [parseJsParams,
        splitOnChar_append_sep ',' _ _ (renderTok_no_comma (hwf t (by simp)))]
      obtain ⟨H, T, hHT⟩ : ∃ H T, splitOnChar ',' (renderParams (t2 :: ts2)) = H :: T := by
        cases hs : splitOnChar ',' (renderParams (t2 :: ts2)) with
        | nil => exact absurd hs (splitOnCharAux_ne_nil ',' _ [])
        | cons H T => exact ⟨H, T, rfl⟩
      have hsp := splitOnChar_cons_ne ',' ' ' (renderParams (t2 :: ts2)) (by decide)
      rw [hHT] at hsp
      simp only [List.headD_cons, List.tail_cons] at hsp
      rw [hsp, List.filterMap_cons, clean_renderTok (hwf t (by simp)),
        filterMap_clean_space_cons H T]
      have hih := ih (fun t' ht' => hwf t' (List.mem_cons_of_mem t ht'))
      rw [parseJsParams, hHT] at hih
      rw [hih]
      cases htr : tokResult t <;> simp [List.filterMap_cons, htr]

theorem isPrefixOf_append_blocked :
    ∀ (p i rest : List Char) (c : Char), (∀ x ∈ p, ¬x = c) →
      p.isPrefixOf i = false → p.isPrefixOf (i ++ c :: rest) = false := by
  intro p
  induction p with
  | nil => intro i rest c _ h; simp [List.isPrefixOf] at h
  | cons q qs ih =>
    intro i rest c hall h
    cases i with
    | nil =>
      rw [List.nil_append]
      show (q == c && qs.isPrefixOf rest) = false
      rw [beq_eq_false_iff_ne.mpr (hall q (by simp))]
      rfl
    | cons b bs =>
      rw [List.cons_append]
      show (q == b && qs.isPrefixOf (bs ++ c :: rest)) = false
      have h' : (q == b && qs.isPrefixOf bs) = false := h
      cases hqb : (q == b) with
      | false => rfl
      | true =>
        rw [hqb] at h'
        rw [ih bs rest c (fun x hx => hall x (List.mem_cons_of_mem q hx))
          (by simpa using h')]
        rfl

theorem matchArrowAt_ident {i : List Char} (hw : wfIdentB i = true)
    (hnp : ("async".toList.isPrefixOf i) = false) :
    matchArrowAt ('=' :: ' ' :: (i ++ ' ' :: '=' :: '>' :: ' ' :: '1' :: [])) = some i := by
  obtain ⟨c, irest, rfl⟩ : ∃ c irest, i = c :: irest := by
    cases i with
    | nil => cases hw
    | cons c irest => exact ⟨c, irest, rfl⟩
  have hwc : identHeadChar c = true := by
    simp only [wfIdentB, Bool.and_eq_true] at hw
    exact hw.1
  have htail : ∀ x ∈ irest, identTailChar x = true :=
    fun x hx => wfIdentB_all hw x (List.mem_cons_of_mem c hx)
  have hr1 : (' ' :: ((c :: irest) ++ ' ' :: '=' :: '>' :: ' ' :: '1' :: [])).dropWhile pyIsSpace
      = (c :: irest) ++ ' ' :: '=' :: '>' :: ' ' :: '1' :: [] := by
    rw [List.dropWhile_cons, if_pos (by decide), List.cons_append, List.dropWhile_cons,
      if_neg (by simp [(identTailChar_props (identHeadChar_tail hwc)).1])]
  have hpfx : ("async".toList.isPrefixOf
      ((c :: irest) ++ ' ' :: '=' :: '>' :: ' ' :: '1' :: [])) = false :=
    isPrefixOf_append_blocked "async".toList (c :: irest) _ ' ' (by decide) hnp
  have hid : identTake ((c :: irest) ++ ' ' :: '=' :: '>' :: ' ' :: '1' :: [])
      = some (c :: irest, ' ' :: '=' :: '>' :: ' ' :: '1' :: []) := by
    rw [List.cons_append, identTake, if_pos hwc,
      takeWhile_append_stop irest _ ' ' htail (by decide),
      dropWhile_append_of_all irest _ htail, List.dropWhile_cons, if_neg (by decide)]
  have hfin : finishArrow ((c :: irest) ++ ' ' :: '=' :: '>' :: ' ' :: '1' :: [])
      = some (c :: irest) := by
    rw [finishArrow, hid]
    rfl
  rw [matchArrowAt]
  simp only [hr1]
  rw [if_neg (by rw [hpfx]; exact Bool.false_ne_true), hfin]

theorem extractParamsFromLine_arrow {i : List Char} (hw : wfIdentB i = true)
    (hna : i ≠ "async".toList) (hnp : ("async".toList.isPrefixOf i) = false) :
    extractParamsFromLine
        ('c' :: 'o' :: 'n' :: 's' :: 't' :: ' ' :: 'f' :: ' ' :: '=' :: ' ' ::
          (i ++ ' ' :: '=' :: '>' :: ' ' :: '1' :: [])) = [i] := by
  have hsearch : searchArrow
      ('c' :: 'o' :: 'n' :: 's' :: 't' :: ' ' :: 'f' :: ' ' :: '=' :: ' ' ::
        (i ++ ' ' :: '=' :: '>' :: ' ' :: '1' :: [])) = some i := by
    show (match matchArrowAt ('=' :: ' ' :: (i ++ ' ' :: '=' :: '>' :: ' ' :: '1' :: [])) with
          | some j => some j
          | none => searchArrow (' ' :: (i ++ ' ' :: '=' :: '>' :: ' ' :: '1' :: []))) = some i
    rw [matchArrowAt_ident hw hnp]
  rw [extractParamsFromLine, hsearch]
  show parseJsParams i = [i]
  rw [parseJsParams, splitOnChar_no_sep ',' i
    (fun x hx => (identTailChar_props (wfIdentB_all hw x hx)).2.2.2.2.1)]
  rw [List.filterMap_cons, cleanJsParamToken_ident hw hna]
  rfl

/-- **C9** (counterexample).  `_parse_js_params` splits on *every* comma, not
only top-level ones: the fragment `a = [1, 2], b` (one parameter with a list
default plus one plain parameter) yields three tokens `a`, `2]`, `b` instead
of `a`, `b`.  Moreover the lone-arrow clause fails for identifiers starting
with `async`: `const f = asyncFoo => x` extracts `Foo`, because the optional
greedy `(?:async\s*)?` of `SINGLE_ARROW_PARAM_PATTERN` eats the prefix. -/
theorem parseJsParams_counterexample :
    parseJsParams ('a' :: ' ' :: '=' :: ' ' :: '[' :: '1' :: ',' :: ' ' :: '2' :: ']' ::
        ',' :: ' ' :: 'b' :: []) = [['a'], ['2', ']'], ['b']] ∧
      parseJsParams ('a' :: ' ' :: '=' :: ' ' :: '[' :: '1' :: ',' :: ' ' :: '2' :: ']' ::
        ',' :: ' ' :: 'b' :: []) ≠ [['a'], ['b']] ∧
      extractParamsFromLine ('c' :: 'o' :: 'n' :: 's' :: 't' :: ' ' :: 'f' :: ' ' :: '=' ::
        ' ' :: 'a' :: 's' :: 'y' :: 'n' :: 'c' :: 'F' :: 'o' :: 'o' :: ' ' :: '=' :: '>' ::
        ' ' :: 'x' :: []) = [['F', 'o', 'o']] := by
  refine ⟨by decide, by decide, by decide⟩

/-- **C9** (amended).  Parameter extraction splits the raw fragment on every
comma (so only fragments whose tokens are themselves comma-free are split at
token boundaries); on each token it strips a default-value assignment, strips
a TypeScript-style type annotation reducing `name: Type` to `name`, and drops
empty, `async` and bare-paren tokens: for any well-formed token list the
result is exactly the listed parameter names.  A lone bare-identifier arrow
parameter `i => ...` on a declaration line is extracted as the one-element
list `[i]`, provided `i` does not itself start with the characters `async`
(which the arrow pattern's optional `async` group would consume). -/
theorem parseJsParams_amended (ts : List ParamTok) (hts : ∀ t ∈ ts, wfTok t = true)
    (i : List Char) (hw : wfIdentB i = true) (hna : i ≠ "async".toList)
    (hnp : ("async".toList.isPrefixOf i) = false) :
    parseJsParams (renderParams ts) = ts.filterMap tokResult ∧
      extractParamsFromLine
        ('c' :: 'o' :: 'n' :: 's' :: 't' :: ' ' :: 'f' :: ' ' :: '=' :: ' ' ::
          (i ++ ' ' :: '=' :: '>' :: ' ' :: '1' :: [])) = [i] :=
  ⟨parseJsParams_renderParams ts hts, extractParamsFromLine_arrow hw hna hnp⟩

/-- Witness for the amended C9 theorem at the fragment
`a, b: T, c = 0, async, , ()` and the arrow identifier `x`. -/
theorem parseJsParams_amended_witness :
    parseJsParams (renderParams [ParamTok.plain "a", ParamTok.typed "b" "T",
        ParamTok.dflt "c" "0", ParamTok.asyncTok, ParamTok.emptyTok, ParamTok.parenTok])
      = [['a'], ['b'], ['c']] ∧
      extractParamsFromLine
        ('c' :: 'o' :: 'n' :: 's' :: 't' :: ' ' :: 'f' :: ' ' :: '=' :: ' ' ::
          ('x' :: [] ++ ' ' :: '=' :: '>' :: ' ' :: '1' :: [])) = [['x']] :=
  parseJsParams_amended
    [ParamTok.plain "a", ParamTok.typed "b" "T", ParamTok.dflt "c" "0",
      ParamTok.asyncTok, ParamTok.emptyTok, ParamTok.parenTok]
    (by decide) ('x' :: []) (by decide) (by decide) (by decide)

theorem charsLe_total : ∀ (s t : List Char), charsLe s t = true ∨ charsLe t s = true := by
  intro s
  induction s with
  | nil => intro t; exact Or.inl rfl
  | cons a as ih =>
    intro t
    cases t with
    | nil => exact Or.inr rfl
    | cons b bs =>
      by_cases hab : a = b
      · subst hab
        rw [charsLe, if_pos rfl, charsLe, if_pos rfl]
        exact ih bs
      · rcases lt_trichotomy a b with h | h | h
        · left; rw [charsLe, if_neg hab]; exact decide_eq_true h
        · exact absurd h hab
        · right; rw [charsLe, if_neg (Ne.symm hab)]; exact decide_eq_true h

theorem charsLe_trans :
    ∀ {s t u : List Char}, charsLe s t = true → charsLe t u = true → charsLe s u = true := by
  intro s
  induction s with
  | nil => intro t u _ _; rfl
  | cons a as ih =>
    intro t u h1 h2
    cases t with
    | nil => simp [charsLe] at h1
    | cons b bs =>
      cases u with
      | nil => simp [charsLe] at h2
      | cons c cs =>
        rw [charsLe] at h1 h2 ⊢
        by_cases hab : a = b
        · subst hab
          rw [if_pos rfl] at h1
          by_cases hbc : a = c
          · subst hbc; rw [if_pos rfl] at h2 ⊢; exact ih h1 h2
          · rw [if_neg hbc] at h2 ⊢; exact h2
        · rw [if_neg hab] at h1
          have hlt1 : a < b := of_decide_eq_true h1
          by_cases hbc : b = c
          · subst hbc; rw [if_neg hab]; exact h1
          · rw [if_neg hbc] at h2
            have hlt2 : b < c := of_decide_eq_true h2
            have hac : a < c := lt_trans hlt1 hlt2
            rw [if_neg (ne_of_lt hac)]
            exact decide_eq_true hac

theorem charsLe_antisymm :
    ∀ {s t : List Char}, charsLe s t = true → charsLe t s = true → s = t := by
  intro s
  induction s with
  | nil =>
    intro t _ h2
    cases t with
    | nil => rfl
    | cons b bs => simp [charsLe] at h2
  | cons a as ih =>
    intro t h1 h2
    cases t with
    | nil => simp [charsLe] at h1
    | cons b bs =>
      rw [charsLe] at h1 h2
      by_cases hab : a = b
      · subst hab
        rw [if_pos rfl] at h1 h2
        rw [ih h1 h2]
      · rw [if_neg hab] at h1
        rw [if_neg (Ne.symm hab)] at h2
        exact absurd (lt_trans (of_decide_eq_true h1) (of_decide_eq_true h2)) (lt_irrefl a)

theorem strLe_antisymm {s t : String} (h1 : strLe s t = true) (h2 : strLe t s = true) :
    s = t := by
  have h3 := charsLe_antisymm h1 h2
  exact congrArg String.mk h3

instance : IsTotal (String × List String) pairRel :=
  ⟨fun a b => charsLe_total a.1.toList b.1.toList⟩

instance : IsTrans (String × List String) pairRel :=
  ⟨fun _ _ _ h1 h2 => charsLe_trans h1 h2⟩

/-- Two sorted file lists with the same members and duplicate-free paths are
equal: `sorted(files)` is a canonical form, so `build_graph` cannot see the
enumeration order. -/
theorem sorted_perm_nodupkeys_eq :
    ∀ (l₁ l₂ : List (String × List String)), l₁.Perm l₂ → l₁.Sorted pairRel →
      l₂.Sorted pairRel → (l₁.map Prod.fst).Nodup → l₁ = l₂ := by
  intro l₁
  induction l₁ with
  | nil =>
    intro l₂ hperm _ _ _
    exact (hperm.symm.eq_nil).symm
  | cons a l₁ ih =>
    intro l₂ hperm hs1 hs2 hnd
    cases l₂ with
    | nil => exact absurd hperm.eq_nil (by simp)
    | cons b l₂ =>
      have hab : a = b := by
        rcases List.mem_cons.mp (hperm.subset (List.mem_cons_self a l₁)) with h | h
        · exact h
        · rcases List.mem_cons.mp (hperm.symm.subset (List.mem_cons_self b l₂)) with h' | h'
          · exact h'.symm
          · exfalso
            have hr1 : pairRel a b := List.rel_of_sorted_cons hs1 b h'
            have hr2 : pairRel b a := List.rel_of_sorted_cons hs2 a h
            have hkey : a.1 = b.1 := strLe_antisymm hr1 hr2
            have hmem : a.1 ∈ l₁.map Prod.fst := by
              rw [hkey]
              exact List.mem_map_of_mem Prod.fst h'
            simp only [List.map_cons, List.nodup_cons] at hnd
            exact hnd.1 hmem
      subst hab
      have htail := hperm.cons_inv
      rw [ih l₂ htail hs1.of_cons hs2.of_cons (by
        simp only [List.map_cons, List.nodup_cons] at hnd
        exact hnd.2)]

theorem sortFiles_eq_of_perm {files₁ files₂ : List (String × List String)}
    (hperm : files₁.Perm files₂) (hnd : (files₁.map Prod.fst).Nodup) :
    sortFiles files₁ = sortFiles files₂ := by
  apply sorted_perm_nodupkeys_eq
  · exact (List.perm_insertionSort pairRel files₁).trans
      (hperm.trans (List.perm_insertionSort pairRel files₂).symm)
  · exact List.sorted_insertionSort pairRel files₁
  · exact List.sorted_insertionSort pairRel files₂
  · exact (((List.perm_insertionSort pairRel files₁).map Prod.fst).nodup_iff).mpr hnd

/-- **C8** (counterexample).  `build_graph` stamps the output with
`datetime.now().isoformat()`, so two runs on the same file set with different
clock readings emit different dictionaries: the output is not byte-identical
and the `generated_at` field alone breaks the claim. -/
theorem buildGraph_timestamp_counterexample :
    (buildGraph (fun _ _ _ => ([] : List (String × Unit)))
        (fun _ _ => ([] : List (String × Unit))) (fun _ _ => [])
        "root" ('t' :: '1' :: []).asString [(('a' :: []).asString, [])])
      ≠ buildGraph (fun _ _ _ => []) (fun _ _ => []) (fun _ _ => [])
          "root" ('t' :: '2' :: []).asString [(('a' :: []).asString, [])] := by
  intro h
  have h2 := congrArg GraphOutput.generatedAt h
  simp only [buildGraph] at h2
  exact absurd h2 (by decide)

/-- **C8** (amended).  Every part of the emitted graph except the
`generated_at` timestamp is a deterministic function of the file set alone:
for any two runs over permuted file lists with duplicate-free paths and any
two clock readings, all other fields coincide (the first step sorts the
files, and everything downstream is a pure function of the sorted list),
while `generated_at` is exactly the clock reading and so differs between
runs. -/
theorem buildGraph_amended {ρ μ : Type}
    (routesFn : List (String × List String) → AList → List (String × List String) → List (String × ρ))
    (modelsFn : List (String × List String) → List (String × List String) → List (String × μ))
    (resolve : String → List String → List (Option String))
    (projectRoot now₁ now₂ : String)
    (files₁ files₂ : List (String × List String))
    (hperm : files₁.Perm files₂) (hnd : (files₁.map Prod.fst).Nodup) :
    graphSansTime (buildGraph routesFn modelsFn resolve projectRoot now₁ files₁)
        = graphSansTime (buildGraph routesFn modelsFn resolve projectRoot now₂ files₂) ∧
      (buildGraph routesFn modelsFn resolve projectRoot now₁ files₁).generatedAt = now₁ := by
  have hs : sortFiles files₁ = sortFiles files₂ := sortFiles_eq_of_perm hperm hnd
  constructor
  · simp only [buildGraph, graphSansTime, hs]
  · simp only [buildGraph]

/-- Witness for the amended C8 theorem: the two-file set `a`, `b` listed in
either order, with clock readings `t1` and `t2`. -/
theorem buildGraph_amended_witness :
    graphSansTime (buildGraph (fun _ _ _ => ([] : List (String × Unit)))
        (fun _ _ => ([] : List (String × Unit))) (fun _ _ => []) "root" "t1"
        [("a", ["x"]), ("b", [])])
      = graphSansTime (buildGraph (fun _ _ _ => ([] : List (String × Unit)))
          (fun _ _ => ([] : List (String × Unit))) (fun _ _ => []) "root" "t2"
          [("b", []), ("a", ["x"])]) ∧
      (buildGraph (fun _ _ _ => ([] : List (String × Unit)))
        (fun _ _ => ([] : List (String × Unit))) (fun _ _ => []) "root" "t1"
        [("a", ["x"]), ("b", [])]).generatedAt = "t1" :=
  buildGraph_amended (fun _ _ _ => ([] : List (String × Unit)))
    (fun _ _ => ([] : List (String × Unit))) (fun _ _ => []) "root" "t1" "t2"
    [("a", ["x"]), ("b", [])] [("b", []), ("a", ["x"])] (by decide) (by decide)

theorem contains_iff_mem_str {l : List String} {a : String} :
    l.contains a = true ↔ a ∈ l := List.elem_iff

theorem ReachableWithin.succ {rev : AList} {target : String} {n : Nat} {v : String}
    (h : ReachableWithin rev target n v) : ReachableWithin rev target (n + 1) v := by
  induction h with
  | refl n => exact ReachableWithin.refl (n + 1)
  | step hu hadj ih => exact ReachableWithin.step ih hadj

theorem ReachableWithin.mono {rev : AList} {target : String} {n m : Nat} {v : String}
    (hnm : n ≤ m) (h : ReachableWithin rev target n v) : ReachableWithin rev target m v := by
  induction m with
  | zero => exact (Nat.le_zero.mp hnm) ▸ h
  | succ m ih =>
    rcases Nat.lt_or_ge n (m + 1) with hlt | hge
    · exact (ih (by omega)).succ
    · exact (by omega : n = m + 1) ▸ h

theorem reachableWithin_zero {rev : AList} {target v : String}
    (h : ReachableWithin rev target 0 v) : v = target := by
  cases h
  rfl

theorem alGet_subset_flatten (rev : AList) (a : String) :
    ∀ x ∈ alGet rev a, x ∈ (rev.map (·.2)).flatten := by
  intro x hx
  rw [alGet] at hx
  cases hlk : rev.lookup a with
  | none => rw [hlk] at hx; cases hx
  | some l =>
    rw [hlk] at hx
    exact List.mem_flatten.mpr ⟨l, List.mem_map_of_mem (·.2) (lookup_mem rev a l hlk), hx⟩

/-- Full effect of one neighbour sweep: some dup-free block `add` of fresh
neighbours is appended to the visited list, to the direct or indirect bucket
according to the level, and to the queue additions; every fresh neighbour is
covered. -/
theorem bfsExpand_spec (nl : Nat) :
    ∀ (nbs vis d i new : List String),
      ∃ add : List String,
        bfsExpand nl nbs vis d i new
            = (vis ++ add, (if nl = 1 then d ++ add else d),
               (if nl = 1 then i else i ++ add), new ++ add) ∧
          add.Nodup ∧ (∀ x ∈ add, x ∈ nbs ∧ x ∉ vis) ∧
          (∀ x ∈ nbs, x ∉ vis → x ∈ vis ++ add) := by
  intro nbs
  induction nbs with
  | nil =>
    intro vis d i new
    refine ⟨[], by simp [bfsExpand], List.nodup_nil, ?_, ?_⟩
    · intro x hx; cases hx
    · intro x hx; cases hx
  | cons nb rest ih =>
    intro vis d i new
    by_cases hmem : nb ∈ vis
    · obtain ⟨add, heq, hnd, hprops, hcov⟩ := ih vis d i new
      refine ⟨add, ?_, hnd, ?_, ?_⟩
      · rw [bfsExpand, if_pos (contains_iff_mem_str.mpr hmem)]
        exact heq
      · intro x hx
        obtain ⟨h1, h2⟩ := hprops x hx
        exact ⟨List.mem_cons_of_mem nb h1, h2⟩
      · intro x hx hxv
        rcases List.mem_cons.mp hx with h | h
        · subst h; exact absurd hmem hxv
        · exact hcov x h hxv
    · obtain ⟨add, heq, hnd, hprops, hcov⟩ := ih (vis ++ [nb])
        (if nl = 1 then d ++ [nb] else d) (if nl = 1 then i else i ++ [nb]) (new ++ [nb])
      refine ⟨nb :: add, ?_, ?_, ?_, ?_⟩
      · rw [bfsExpand, if_neg (fun hc => hmem (contains_iff_mem_str.mp hc))]
        rw [heq]
        by_cases hnl : nl = 1 <;> simp [hnl, List.append_assoc]
      · refine List.nodup_cons.mpr ⟨?_, hnd⟩
        intro hin
        exact (hprops nb hin).2 (List.mem_append.mpr (Or.inr (List.mem_singleton.mpr rfl)))
      · intro x hx
        rcases List.mem_cons.mp hx with h | h
        · subst h; exact ⟨List.mem_cons_self x rest, hmem⟩
        · obtain ⟨h1, h2⟩ := hprops x h
          exact ⟨List.mem_cons_of_mem nb h1, fun hv => h2 (List.mem_append.mpr (Or.inl hv))⟩
      · intro x hx hxv
        rcases List.mem_cons.mp hx with h | h
        · subst h
          exact List.mem_append.mpr (Or.inr (List.mem_cons_self x add))
        · by_cases hxvb : x ∈ vis ++ [nb]
          · rcases List.mem_append.mp hxvb with h1 | h1
            · exact absurd h1 hxv
            · rw [List.mem_singleton.mp h1]
              exact List.mem_append.mpr (Or.inr (List.mem_cons_self nb add))
          · rcases List.mem_append.mp (hcov x h hxvb) with h1 | h1
            · rcases List.mem_append.mp h1 with h2 | h2
              · exact List.mem_append.mpr (Or.inl h2)
              · rw [List.mem_singleton.mp h2]
                exact List.mem_append.mpr (Or.inr (List.mem_cons_self nb add))
            · exact List.mem_append.mpr (Or.inr (List.mem_cons_of_mem nb h1))

/-- Once every queued level is at or above the depth bound, the queue drains
without touching the accumulators. -/
theorem bfsAux_drain (rev : AList) (depth : Nat) :
    ∀ (q : List (String × Nat)) (fuel : Nat) (vis d i : List String),
      (∀ p ∈ q, depth ≤ p.2) → q.length ≤ fuel →
      bfsAux rev depth fuel q vis d i = (d, i) := by
  intro q
  induction q with
  | nil =>
    intro fuel vis d i _ _
    cases fuel with
    | zero => rfl
    | succ fuel => rfl
  | cons p rest ih =>
    intro fuel vis d i hall hlen
    cases fuel with
    | zero => simp at hlen
    | succ fuel =>
      obtain ⟨c, l⟩ := p
      rw [bfsAux, if_pos (hall (c, l) (List.mem_cons_self _ _))]
      refine ih fuel vis d i (fun p hp => hall p (List.mem_cons_of_mem _ hp)) ?_
      simp only [List.length_cons] at hlen
      omega

theorem levelBfs_nil_aux (rev : AList) (depth : Nat) :
    ∀ (k L : Nat) (vis d i : List String), depth - L ≤ k →
      levelBfs rev depth L [] [] vis d i = (d, i) := by
  intro k
  induction k with
  | zero =>
    intro L vis d i hk
    rw [levelBfs, dif_pos (by omega)]
  | succ k ih =>
    intro L vis d i hk
    by_cases hdL : depth ≤ L
    · rw [levelBfs, dif_pos hdL]
    · rw [levelBfs, dif_neg hdL]
      exact ih (L + 1) vis d i (by omega)

theorem countP_split (new : List String) :
    ∀ (l vis : List String),
      l.countP (fun v => !(vis.contains v))
        = l.countP (fun v => !((vis ++ new).contains v))
          + l.countP (fun v => !(vis.contains v) && new.contains v) := by
  intro l vis
  induction l with
  | nil => rfl
  | cons x l ih =>
    by_cases hv : x ∈ vis
    · rw [List.countP_cons_of_neg _ _ (by simp [hv]), List.countP_cons_of_neg _ _ (by simp [hv]),
        List.countP_cons_of_neg _ _ (by simp [hv]), ih]
    · by_cases hn : x ∈ new
      · rw [List.countP_cons_of_pos _ _ (by simp [hv]), List.countP_cons_of_neg _ _ (by simp [hn]),
          List.countP_cons_of_pos _ _ (by simp [hv, hn]), ih]
        omega
      · rw [List.countP_cons_of_pos _ _ (by simp [hv]), List.countP_cons_of_pos _ _ (by simp [hv, hn]),
          List.countP_cons_of_neg _ _ (by simp [hn]), ih]
        omega

/-- Marking a fresh dup-free block of adjacency-listed nodes visited lowers
the count of still-discoverable nodes by the block's size. -/
theorem unseenCount_append (rev : AList) {vis new : List String}
    (hnd : new.Nodup) (hdisj : ∀ x ∈ new, x ∉ vis)
    (hsub : ∀ x ∈ new, x ∈ (rev.map (·.2)).flatten) :
    unseenCount rev (vis ++ new) + new.length ≤ unseenCount rev vis := by
  rw [unseenCount, unseenCount, ← List.countP_eq_length_filter,
    ← List.countP_eq_length_filter, countP_split new _ vis]
  have hfnd : ((((rev.map (·.2)).flatten).dedup).filter
      (fun v => !(vis.contains v) && new.contains v)).Nodup :=
    (List.nodup_dedup _).filter _
  have hperm : List.Perm ((((rev.map (·.2)).flatten).dedup).filter
      (fun v => !(vis.contains v) && new.contains v)) new := by
    rw [List.perm_ext_iff_of_nodup hfnd hnd]
    intro a
    rw [List.mem_filter, List.mem_dedup]
    constructor
    · rintro ⟨_, hp⟩
      simp only [Bool.and_eq_true] at hp
      exact contains_iff_mem_str.mp hp.2
    · intro ha
      refine ⟨hsub a ha, ?_⟩
      simp only [Bool.and_eq_true, Bool.not_eq_true']
      exact ⟨Bool.eq_false_iff.mpr (fun hc => hdisj a ha (contains_iff_mem_str.mp hc)),
        contains_iff_mem_str.mpr ha⟩
  have hlen : (((rev.map (·.2)).flatten).dedup).countP
      (fun v => !(vis.contains v) && new.contains v) = new.length := by
    rw [List.countP_eq_length_filter]
    exact hperm.length_eq
  omega

theorem bfsAux_term (rev : AList) (depth : Nat) (L : Nat) (A B vis d i : List String)
    (fuel : Nat) (hdL : depth ≤ L) (hfuel : A.length + B.length ≤ fuel) :
    bfsAux rev depth fuel (A.map (fun x => (x, L)) ++ B.map (fun x => (x, L + 1))) vis d i
      = levelBfs rev depth L A B vis d i := by
  rw [levelBfs.eq_def]
  dsimp only
  rw [dif_pos hdL]
  apply bfsAux_drain
  · intro p hp
    rcases List.mem_append.mp hp with h | h
    · obtain ⟨x, _, hpe⟩ := List.mem_map.mp h
      rw [← hpe]
      exact hdL
    · obtain ⟨x, _, hpe⟩ := List.mem_map.mp h
      rw [← hpe]
      exact Nat.le_succ_of_le hdL
  · rw [List.length_append, List.length_map, List.length_map]
    exact hfuel

/-- With enough fuel — one unit per present or future queue entry — the
fuelled queue loop agrees with its level-structured restatement. -/
theorem bfsAux_eq_levelBfs (rev : AList) (depth : Nat) :
    ∀ (fuel k L : Nat) (A B vis d i : List String),
      depth - L ≤ k →
      A.length + B.length + unseenCount rev vis ≤ fuel →
      bfsAux rev depth fuel (A.map (fun x => (x, L)) ++ B.map (fun x => (x, L + 1))) vis d i
        = levelBfs rev depth L A B vis d i := by
  intro fuel
  induction fuel with
  | zero =>
    intro k L A B vis d i hk hfuel
    have hA : A = [] := List.eq_nil_of_length_eq_zero (by omega)
    have hB : B = [] := List.eq_nil_of_length_eq_zero (by omega)
    subst hA; subst hB
    rw [levelBfs_nil_aux rev depth (depth - L) L vis d i le_rfl]
    rfl
  | succ fuel ihf =>
    intro k
    induction k with
    | zero =>
      intro L A B vis d i hk hfuel
      exact bfsAux_term rev depth L A B vis d i (fuel + 1) (by omega) (by omega)
    | succ k ihk =>
      intro L A B vis d i hk hfuel
      by_cases hdL : depth ≤ L
      · exact bfsAux_term rev depth L A B vis d i (fuel + 1) hdL (by omega)
      · cases A with
        | nil =>
          rw [levelBfs, dif_neg hdL]
          have h2 := ihk (L + 1) B [] vis d i (by omega) (by
            simp only [List.length_nil] at hfuel ⊢
            omega)
          simp only [List.map_nil, List.append_nil, List.nil_append] at h2 ⊢
          exact h2
        | cons a A2 =>
          obtain ⟨add, heq, hnd, hprops, hcov⟩ := bfsExpand_spec (L + 1) (alGet rev a) vis d i []
          rw [show (a :: A2).map (fun x => (x, L)) ++ B.map (fun x => (x, L + 1))
              = (a, L) :: (A2.map (fun x => (x, L)) ++ B.map (fun x => (x, L + 1))) from by simp]
          rw [bfsAux, if_neg hdL]
          rw [levelBfs, dif_neg hdL]
          simp only [heq, List.nil_append]
          rw [show (A2.map (fun x => (x, L)) ++ B.map (fun x => (x, L + 1)))
                ++ add.map (fun x => (x, L + 1))
              = A2.map (fun x => (x, L)) ++ (B ++ add).map (fun x => (x, L + 1)) from by
            simp [List.map_append, List.append_assoc]]
          have hdisj : ∀ x ∈ add, x ∉ vis := fun x hx => (hprops x hx).2
          have hsub : ∀ x ∈ add, x ∈ (rev.map (·.2)).flatten :=
            fun x hx => alGet_subset_flatten rev a x (hprops x hx).1
          have hun := unseenCount_append rev hnd hdisj hsub
          refine ihf (k + 1) L A2 (B ++ add) (vis ++ add) _ _ (by omega) ?_
          simp only [List.length_cons, List.length_append] at hfuel ⊢
          omega

/-- Terminal state of the level loop: at `L = depth` the accumulators are
already the distance-1 and distance-`2..depth` sets. -/
theorem levelBfs_spec_term (rev : AList) (target : String) (depth L : Nat)
    (A B vis d i : List String)
    (hdepth : 1 ≤ depth) (hdL : depth ≤ L) (hLd : L ≤ depth)
    (h1 : ∀ v, v ∈ vis ↔ (ReachableWithin rev target L v ∨ v ∈ B))
    (h6 : depth ≤ L → B = [])
    (h8 : L ≠ 0 →
      (∀ v, v ∈ d ↔ (v ≠ target ∧ ReachableWithin rev target 1 v)) ∧
      (∀ v, v ∈ i ↔ (v ∈ vis ∧ v ≠ target ∧ ¬ReachableWithin rev target 1 v))) :
    (∀ v, v ∈ (levelBfs rev depth L A B vis d i).1 ↔
        (v ≠ target ∧ ReachableWithin rev target 1 v)) ∧
    (∀ v, v ∈ (levelBfs rev depth L A B vis d i).2 ↔
        (v ≠ target ∧ ¬ReachableWithin rev target 1 v ∧
          ReachableWithin rev target depth v)) := by
  have hLdepth : L = depth := Nat.le_antisymm hLd hdL
  subst hLdepth
  have hB : B = [] := h6 hdL
  subst hB
  obtain ⟨hd8, hi8⟩ := h8 (by omega)
  rw [levelBfs.eq_def]
  dsimp only
  rw [dif_pos hdL]
  constructor
  · intro v
    exact hd8 v
  · intro v
    constructor
    · intro hv
      obtain ⟨hvis, hne, hn1⟩ := (hi8 v).mp hv
      rcases (h1 v).mp hvis with h | h
      · exact ⟨hne, hn1, h⟩
      · cases h
    · rintro ⟨hne, hn1, hRd⟩
      exact (hi8 v).mpr ⟨(h1 v).mpr (Or.inl hRd), hne, hn1⟩

set_option maxHeartbeats 1000000 in
/-- Invariant induction for the level-structured BFS loop: with the visited
list equal to the radius-`L` ball plus the discovered next level, the loop
returns exactly the distance-1 and distance-`2..depth` sets. -/
theorem levelBfs_spec (rev : AList) (target : String) (depth : Nat) (hdepth : 1 ≤ depth) :
    ∀ (k L : Nat) (A B vis d i : List String),
      depth - L ≤ k → L ≤ depth →
      (∀ v, v ∈ vis ↔ (ReachableWithin rev target L v ∨ v ∈ B)) →
      (∀ w, ReachableWithin rev target (L + 1) w →
        w ∈ vis ∨ ∃ u ∈ A, w ∈ alGet rev u) →
      (∀ u ∈ A, ReachableWithin rev target L u) →
      (∀ v ∈ B, ReachableWithin rev target (L + 1) v) →
      (∀ v ∈ B, ¬ReachableWithin rev target L v) →
      (depth ≤ L → B = []) →
      (L = 0 → d = B ∧ i = []) →
      (L ≠ 0 →
        (∀ v, v ∈ d ↔ (v ≠ target ∧ ReachableWithin rev target 1 v)) ∧
        (∀ v, v ∈ i ↔ (v ∈ vis ∧ v ≠ target ∧ ¬ReachableWithin rev target 1 v))) →
      (∀ v, v ∈ (levelBfs rev depth L A B vis d i).1 ↔
          (v ≠ target ∧ ReachableWithin rev target 1 v)) ∧
      (∀ v, v ∈ (levelBfs rev depth L A B vis d i).2 ↔
          (v ≠ target ∧ ¬ReachableWithin rev target 1 v ∧
            ReachableWithin rev target depth v)) := by
  intro k
  induction k with
  | zero =>
    intro L A B vis d i hk hLd h1 h2 h3 h4 h5 h6 h7 h8
    exact levelBfs_spec_term rev target depth L A B vis d i hdepth (by omega) hLd h1 h6 h8
  | succ k ihk =>
    intro L
    by_cases hdL : depth ≤ L
    · intro A B vis d i hk hLd h1 h2 h3 h4 h5 h6 h7 h8
      exact levelBfs_spec_term rev target depth L A B vis d i hdepth hdL hLd h1 h6 h8
    · intro A
      induction A with
      | nil =>
        intro B vis d i hk hLd h1 h2 h3 h4 h5 h6 h7 h8
        rw [levelBfs.eq_def]
        dsimp only
        rw [dif_neg hdL]
        have hvis' : ∀ v, v ∈ vis ↔
            (ReachableWithin rev target (L + 1) v ∨ v ∈ ([] : List String)) := by
          intro v
          constructor
          · intro hv
            rcases (h1 v).mp hv with h | h
            · exact Or.inl h.succ
            · exact Or.inl (h4 v h)
          · rintro (h | h)
            · rcases h2 v h with h' | ⟨u, hu, _⟩
              · exact h'
              · cases hu
            · cases h
        have h2' : ∀ w, ReachableWithin rev target (L + 1 + 1) w →
            w ∈ vis ∨ ∃ u ∈ B, w ∈ alGet rev u := by
          intro w hw
          cases hw with
          | refl => exact Or.inl ((h1 target).mpr (Or.inl (ReachableWithin.refl L)))
          | step hu hadj =>
            rename_i u
            have huvis : u ∈ vis := by
              rcases h2 u hu with h' | ⟨u', hu', _⟩
              · exact h'
              · cases hu'
            rcases (h1 u).mp huvis with h' | h'
            · have : ReachableWithin rev target (L + 1) w := ReachableWithin.step h' hadj
              rcases h2 w this with h'' | ⟨u'', hu'', _⟩
              · exact Or.inl h''
              · cases hu''
            · exact Or.inr ⟨u, h', hadj⟩
        have h8' : L + 1 ≠ 0 →
            (∀ v, v ∈ d ↔ (v ≠ target ∧ ReachableWithin rev target 1 v)) ∧
            (∀ v, v ∈ i ↔ (v ∈ vis ∧ v ≠ target ∧ ¬ReachableWithin rev target 1 v)) := by
          intro _
          by_cases hL0 : L = 0
          · obtain ⟨hdB, hi0⟩ := h7 hL0
            subst hdB
            subst hi0
            constructor
            · intro v
              constructor
              · intro hv
                refine ⟨?_, by simpa [hL0] using h4 v hv⟩
                intro hvt
                exact h5 v hv (by rw [hvt]; exact ReachableWithin.refl L)
              · rintro ⟨hne, h1v⟩
                have hvvis : v ∈ vis := by
                  rcases h2 v (by simpa [hL0] using h1v) with h' | ⟨u, hu, _⟩
                  · exact h'
                  · cases hu
                rcases (h1 v).mp hvvis with h' | h'
                · exact absurd (reachableWithin_zero (hL0 ▸ h')) hne
                · exact h'
            · intro v
              constructor
              · intro hv; cases hv
              · rintro ⟨hvvis, hne, hn1⟩
                rcases (h1 v).mp hvvis with h' | h'
                · exact absurd (reachableWithin_zero (hL0 ▸ h')) hne
                · exact absurd (by simpa [hL0] using h4 v h') hn1
          · exact h8 hL0
        exact ihk (L + 1) B [] vis d i (by omega) (by omega) hvis' h2' h4
          (fun v hv => by cases hv) (fun v hv => by cases hv) (fun _ => rfl)
          (fun h => absurd h (by omega)) h8'
      | cons a A2 ihA =>
        intro B vis d i hk hLd h1 h2 h3 h4 h5 h6 h7 h8
        obtain ⟨add, heq, hnd, hprops, hcov⟩ := bfsExpand_spec (L + 1) (alGet rev a) vis d i []
        rw [levelBfs.eq_def]
        dsimp only
        rw [dif_neg hdL]
        simp only [heq, List.nil_append]
        have h1' : ∀ v, v ∈ vis ++ add ↔
            (ReachableWithin rev target L v ∨ v ∈ B ++ add) := by
          intro v
          rw [List.mem_append, List.mem_append, h1 v]
          tauto
        have h2' : ∀ w, ReachableWithin rev target (L + 1) w →
            w ∈ vis ++ add ∨ ∃ u ∈ A2, w ∈ alGet rev u := by
          intro w hw
          rcases h2 w hw with hv | ⟨u, hu, hadj⟩
          · exact Or.inl (List.mem_append.mpr (Or.inl hv))
          · rcases List.mem_cons.mp hu with h | h
            · subst h
              by_cases hwv : w ∈ vis
              · exact Or.inl (List.mem_append.mpr (Or.inl hwv))
              · exact Or.inl (hcov w hadj hwv)
            · exact Or.inr ⟨u, h, hadj⟩
        have h3' : ∀ u ∈ A2, ReachableWithin rev target L u :=
          fun u hu => h3 u (List.mem_cons_of_mem a hu)
        have h4' : ∀ v ∈ B ++ add, ReachableWithin rev target (L + 1) v := by
          intro v hv
          rcases List.mem_append.mp hv with h | h
          · exact h4 v h
          · exact ReachableWithin.step (h3 a (List.mem_cons_self a A2)) (hprops v h).1
        have h5' : ∀ v ∈ B ++ add, ¬ReachableWithin rev target L v := by
          intro v hv hR
          rcases List.mem_append.mp hv with h | h
          · exact h5 v h hR
          · exact (hprops v h).2 ((h1 v).mpr (Or.inl hR))
        have h7' : L = 0 →
            (if L + 1 = 1 then d ++ add else d) = B ++ add ∧
            (if L + 1 = 1 then i else i ++ add) = [] := by
          intro hL0
          obtain ⟨hdB, hi0⟩ := h7 hL0
          rw [if_pos (by omega), if_pos (by omega), hdB, hi0]
          exact ⟨rfl, rfl⟩
        have h8' : L ≠ 0 →
            (∀ v, v ∈ (if L + 1 = 1 then d ++ add else d) ↔
              (v ≠ target ∧ ReachableWithin rev target 1 v)) ∧
            (∀ v, v ∈ (if L + 1 = 1 then i else i ++ add) ↔
              (v ∈ vis ++ add ∧ v ≠ target ∧ ¬ReachableWithin rev target 1 v)) := by
          intro hL0
          obtain ⟨hd8, hi8⟩ := h8 hL0
          rw [if_neg (by omega), if_neg (by omega)]
          refine ⟨hd8, ?_⟩
          intro v
          constructor
          · intro hv
            rcases List.mem_append.mp hv with h | h
            · obtain ⟨hvvis, hne, hn1⟩ := (hi8 v).mp h
              exact ⟨List.mem_append.mpr (Or.inl hvvis), hne, hn1⟩
            · refine ⟨List.mem_append.mpr (Or.inr h), ?_, ?_⟩
              · intro hvt
                subst hvt
                exact (hprops v h).2 ((h1 v).mpr (Or.inl (ReachableWithin.refl L)))
              · intro h1v
                exact (hprops v h).2
                  ((h1 v).mpr (Or.inl (ReachableWithin.mono (show 1 ≤ L by omega) h1v)))
          · rintro ⟨hmem, hne, hn1⟩
            rcases List.mem_append.mp hmem with h | h
            · exact List.mem_append.mpr (Or.inl ((hi8 v).mpr ⟨h, hne, hn1⟩))
            · exact List.mem_append.mpr (Or.inr h)
        exact ihA (B ++ add) (vis ++ add)
          (if L + 1 = 1 then d ++ add else d) (if L + 1 = 1 then i else i ++ add)
          hk hLd h1' h2' h3' h4' h5' (fun h => absurd h hdL) h7' h8'

/-- **C1**.  `dependent_levels` is a breadth-first search of the reverse
graph from the target with the visited set seeded with the target: for every
reverse-adjacency map, target and depth bound `d ≥ 1`, `direct` holds exactly
the files at distance exactly 1 (reachable within 1 step and distinct from
the target) and `indirect` exactly the files at distance `2..d` (reachable
within `d` steps but not within 1); on the four-file chain D→C→B→A queried
from `A` with depth 2, this gives direct `B`, indirect `C`, `D` excluded. -/
theorem dependentLevels_bfs (rev : AList) (target : String) (depth : Nat)
    (hdepth : 1 ≤ depth) :
    ((∀ v, v ∈ (dependentLevels rev target depth).1 ↔
        (v ≠ target ∧ ReachableWithin rev target 1 v)) ∧
      (∀ v, v ∈ (dependentLevels rev target depth).2 ↔
        (v ≠ target ∧ ¬ReachableWithin rev target 1 v ∧
          ReachableWithin rev target depth v))) ∧
    dependentLevels chainRev4 "A" 2 = (["B"], ["C"]) := by
  constructor
  · have hfuel : ([target] : List String).length + ([] : List String).length
        + unseenCount rev [target] ≤ bfsFuel rev := by
      have hu1 : unseenCount rev [target] ≤ ((rev.map (·.2)).flatten).length := by
        rw [unseenCount]
        exact Nat.le_trans (List.length_filter_le _ _) (List.dedup_sublist _).length_le
      have hu2 : ((rev.map (·.2)).flatten).length
          = ((rev.map (fun p => p.2.length)).sum) := by
        rw [List.length_flatten, List.map_map]
        rfl
      rw [bfsFuel]
      simp only [List.length_cons, List.length_nil]
      omega
    have hq : (([target] : List String).map (fun x => (x, 0))
          ++ ([] : List String).map (fun x => (x, 0 + 1)))
        = [(target, 0)] := by simp
    have heq := bfsAux_eq_levelBfs rev depth (bfsFuel rev) depth 0 [target] [] [target] [] []
      (by omega) hfuel
    rw [hq] at heq
    rw [dependentLevels, heq]
    refine levelBfs_spec rev target depth hdepth depth 0 [target] [] [target] [] []
      (by omega) (by omega) ?_ ?_ ?_ ?_ ?_ (fun _ => rfl) (fun _ => ⟨rfl, rfl⟩)
      (fun h => absurd rfl h)
    · intro v
      constructor
      · intro h
        refine Or.inl ?_
        rw [List.mem_singleton.mp h]
        exact ReachableWithin.refl 0
      · rintro (h | h)
        · rw [reachableWithin_zero h]
          exact List.mem_singleton.mpr rfl
        · cases h
    · intro w hw
      cases hw with
      | refl => exact Or.inl (List.mem_singleton.mpr rfl)
      | step hu hadj =>
        rename_i u
        rw [reachableWithin_zero hu] at hadj
        exact Or.inr ⟨target, List.mem_singleton.mpr rfl, hadj⟩
    · intro u hu
      rw [List.mem_singleton.mp hu]
      exact ReachableWithin.refl 0
    · intro v hv
      cases hv
    · intro v hv
      cases hv
  · decide

/-- Witness for the C1 theorem: the four-file chain at depth 2. -/
theorem dependentLevels_bfs_witness :
    1 ≤ 2 ∧ dependentLevels chainRev4 "A" 2 = (["B"], ["C"]) :=
  ⟨by decide, (dependentLevels_bfs chainRev4 "A" 2 (by decide)).2⟩

/-- The three-module cycle instance of `strongly_connected_components`:
alpha → beta → gamma → alpha yields exactly one component holding all three
module names, sorted. -/
theorem stronglyConnectedComponents_threeCycle :
    stronglyConnectedComponents
        [("alpha", ["beta"]), ("beta", ["gamma"]), ("gamma", ["alpha"])]
      = [["alpha", "beta", "gamma"]] := by decide

end Spec2Proof
